import Mathlib

/-!
Verification of the `sortedlist-rs` crate (`src/lib.rs`): a bucketed sorted
list (`SortedList<T>`) with a segment tree over bucket sizes.  The Rust code
is shallowly embedded below: `Vec<T>` becomes `List α`, `usize` becomes `Nat`,
panics become `Option.none` (operations that can panic return `Option`), and
the ambient `T : Ord` becomes a `LinearOrder`.  Rust's `Vec::sort` (a stable
merge sort) is modelled by `List.mergeSort`.
-/

set_option linter.unusedSectionVars false
set_option linter.unusedVariables false

namespace SortedListRs

variable {α : Type} [LinearOrder α]

/-- Result of `binary_search`: Rust's `Result<usize, usize>`, `ok` = `Ok`,
`err` = `Err`. -/
inductive SearchResult : Type
  | ok : Nat → SearchResult
  | err : Nat → SearchResult
deriving DecidableEq, Repr

/-- The `SortedList<T>` struct (fields `_lists`, `_index_tree`,
`_index_tree_offset`, `_load_factor`, `_upper_load_factor`,
`_lower_load_factor`, `_len`). -/
structure SortedList (α : Type) where
  lists : List (List α)
  indexTree : List Nat
  indexTreeOffset : Nat
  loadFactor : Nat
  upperLoadFactor : Nat
  lowerLoadFactor : Nat
  len : Nat

/-- `tree[i]` — reads of `self._index_tree[i]`.  In every reachable state the
tree has length `2 * offset` and all reads are in bounds, so the default `0`
is never produced where Rust would panic. -/
def tget (t : List Nat) (i : Nat) : Nat := t.getD i 0

/-- The list of bucket sizes `|lists[i]|`. -/
def bucketSizes (ls : List (List α)) : List Nat := ls.map List.length

/-- Size of bucket `i`, `0` when out of range (matching a zeroed tree leaf). -/
def sizeD (ls : List (List α)) (i : Nat) : Nat := (bucketSizes ls).getD i 0

/-- `Self::_default()`: empty lists, tree of `2 * 32` zeros, offset `32`,
load factors `1024 / 2048 / 512`, length `0`. -/
def defaultSL : SortedList α :=
  ⟨[], List.replicate 64 0, 32, 1024, 2048, 512, 0⟩

/-- The loop `while self._index_tree_offset < self._lists.len() { *= 2 }`
of `_rebuild_index_tree`, started at `32`.  (The guard `1 ≤ off` is always
true at the call site, where `off = 32`; it only serves termination.) -/
def growOffset (off n : Nat) : Nat :=
  if h : 1 ≤ off ∧ off < n then growOffset (2 * off) n else off
termination_by n - off
decreasing_by omega

/-- The leaf-filling loop of `_rebuild_index_tree`: for `node` in `0..n`,
set `tree[offset + node] := |lists[node]|`. -/
def setLeavesAux (t : List Nat) (sz : List Nat) (offset : Nat) : Nat → List Nat
  | 0 => t
  | n + 1 => (setLeavesAux t sz offset n).set (offset + n) (sz.getD n 0)

/-- The internal-node loop of `_rebuild_index_tree`: for `node` in
`(1..offset).rev()`, set `tree[node] := tree[2*node] + tree[2*node+1]`.
`buildInternal t n` processes nodes `n, n-1, …, 1`. -/
def buildInternal (t : List Nat) : Nat → List Nat
  | 0 => t
  | n + 1 => buildInternal (t.set (n + 1) (tget t (2 * (n + 1)) + tget t (2 * (n + 1) + 1))) n

/-- `_rebuild_index_tree`: recompute the offset, zero/resize the tree to
`2 * offset`, write the leaves, then the internal nodes bottom-up. -/
def rebuildIndexTree (s : SortedList α) : SortedList α :=
  let offset := growOffset 32 s.lists.length
  let t1 := setLeavesAux (List.replicate (2 * offset) 0) (bucketSizes s.lists) offset s.lists.length
  { s with indexTree := buildInternal t1 (offset - 1), indexTreeOffset := offset }

/-- The upward loop of `_index_tree_add`: `while node > 0`, recompute
`tree[node]` from its children and halve `node`. -/
def propagateUp (t : List Nat) (node : Nat) : List Nat :=
  if 1 ≤ node then
    propagateUp (t.set node (tget t (2 * node) + tget t (2 * node + 1))) (node / 2)
  else t
termination_by node
decreasing_by omega

/-- `_index_tree_add(i, val)` with `val = ±1`: adjust leaf `offset + i`,
then fix all ancestors.  (Rust's `usize` subtraction would panic on
underflow; in every reachable call the leaf is positive, here `Nat`
subtraction truncates.) -/
def indexTreeAdd (t : List Nat) (offset i : Nat) (val : Int) : List Nat :=
  let node := offset + i
  let t1 := if 0 ≤ val then t.set node (tget t node + val.toNat)
            else t.set node (tget t node - (-val).toNat)
  propagateUp t1 (node / 2)

/-- `_index_tree_sum(ql, qr, node, l, r)`: recursive segment-tree range sum
over leaf interval `[l, r]`, query `[ql, qr]`. -/
def indexTreeSum (t : List Nat) (ql qr node l r : Nat) : Nat :=
  if ql ≤ l ∧ r ≤ qr then tget t node
  else if qr < l ∨ r < ql then 0
  else
    indexTreeSum t ql qr (2 * node) l ((l + r) / 2) +
    indexTreeSum t ql qr (2 * node + 1) ((l + r) / 2 + 1) r
termination_by r - l
decreasing_by all_goals omega

/-- The bisection loop of `_bisect_right_lists`: maintains
`lists[lo][0] <= element < lists[hi][0]`; each head read
`self._lists[mid][0]` panics (`none`) when the bucket is empty. -/
def bisectGo (ls : List (List α)) (x : α) (lo hi : Nat) : Option Nat :=
  if _h : lo + 1 < hi then
    match (ls.getD ((lo + hi) / 2) []).head? with
    | none => none
    | some hm => if hm ≤ x then bisectGo ls x ((lo + hi) / 2) hi else bisectGo ls x lo ((lo + hi) / 2)
  else some lo
termination_by hi - lo
decreasing_by all_goals omega

/-- `_bisect_right_lists(element)`: find the bucket where `element` belongs.
Reads `lists[0][0]` and `lists[hi][0]`; `none` models the Rust panic when an
accessed bucket (or the bucket list) is empty. -/
def bisectRightLists (ls : List (List α)) (x : α) : Option Nat :=
  match (ls.getD 0 []).head? with
  | none => none
  | some h0 =>
    if x < h0 then some 0
    else
      match (ls.getD (ls.length - 1) []).head? with
      | none => none
      | some hh =>
        if hh ≤ x then some (ls.length - 1)
        else bisectGo ls x 0 (ls.length - 1)

/-- The loop of Rust `std`'s `slice::binary_search` (called on a bucket):
half the interval `[left, right)` each step, early-return `Ok(mid)` on an
equal element.  All reads are in bounds (`mid < right ≤ |as|`). -/
def sbsGo (as : List α) (x : α) (left right : Nat) : SearchResult :=
  if h : left < right then
    let mid := left + (right - left) / 2
    let v := as.getD mid x
    if v < x then sbsGo as x (mid + 1) right
    else if x < v then sbsGo as x left mid
    else SearchResult.ok mid
  else SearchResult.err left
termination_by right - left
decreasing_by all_goals omega

/-- Rust `std`'s `<[T]>::binary_search(&x)` on a bucket. -/
def sliceBinarySearch (as : List α) (x : α) : SearchResult := sbsGo as x 0 as.length

/-- The descent loop of `_locate_kth_element`: from the root, go to the left
child when its sum is at least `cnt`, otherwise subtract it and go right.
(The guard `1 ≤ node` is invariably true — the descent starts at `1` — and
only serves termination.) -/
def locateAux (t : List Nat) (offset : Nat) (node cnt : Nat) : Nat × Nat :=
  if h : 1 ≤ node ∧ node < offset then
    if cnt ≤ tget t (2 * node) then locateAux t offset (2 * node) cnt
    else locateAux t offset (2 * node + 1) (cnt - tget t (2 * node))
  else (node - offset, cnt - 1)
termination_by offset - node
decreasing_by all_goals omega

/-- `_locate_kth_element(k)`: panics (`none`) when `k >= len`, otherwise
descends the tree starting from `node = 1`, `cnt = k + 1`. -/
def locateKthElement (s : SortedList α) (k : Nat) : Option (Nat × Nat) :=
  if s.len ≤ k then none
  else some (locateAux s.indexTree s.indexTreeOffset 1 (k + 1))

/-- `_at(i, j)` = `&self._lists[i][j]`; `none` models the Rust out-of-bounds
panic. -/
def atSL (s : SortedList α) (i j : Nat) : Option α := (s.lists.getD i [])[j]?

/-- `kth_smallest(k)` (also the `Index` operator `self[k]`). -/
def kthSmallest (s : SortedList α) (k : Nat) : Option α := do
  let ij ← locateKthElement s k
  atSL s ij.1 ij.2

/-- `_expand(i)`: panics (`none`) when `|lists[i]| < upper_load_factor`;
otherwise drains the upper half of bucket `i` into a new bucket at `i + 1`
and rebuilds the tree. -/
def expand (s : SortedList α) (i : Nat) : Option (SortedList α) :=
  let bucket := s.lists.getD i []
  if bucket.length < s.upperLoadFactor then none
  else
    let kept := bucket.take (bucket.length / 2)
    let removed := bucket.drop (bucket.length / 2)
    some (rebuildIndexTree { s with lists := (s.lists.set i kept).insertIdx (i + 1) removed })

/-- `_collapse(i)`: panics (`none`) when `lists.len() <= 1` or when the
`assert!(left.min(right) < usize::MAX)` fails; otherwise merges bucket `i`
with its smaller neighbour (`none` plays `usize::MAX` for a missing
neighbour) and rebuilds the tree. -/
def collapse (s : SortedList α) (i : Nat) : Option (SortedList α) :=
  if s.lists.length ≤ 1 then none
  else
    let left : Option Nat := if 1 ≤ i then some (s.lists.getD (i - 1) []).length else none
    let right : Option Nat := if i + 1 < s.lists.length then some (s.lists.getD (i + 1) []).length else none
    if left = none ∧ right = none then none
    else
      let takeLeft : Bool := match left, right with
        | some a, some b => a < b
        | some _, none => true
        | none, _ => false
      if takeLeft then
        let removed := s.lists.getD i []
        let ls1 := s.lists.eraseIdx i
        some (rebuildIndexTree { s with lists := ls1.set (i - 1) (ls1.getD (i - 1) [] ++ removed) })
      else
        let removed := s.lists.getD (i + 1) []
        let ls1 := s.lists.eraseIdx (i + 1)
        some (rebuildIndexTree { s with lists := ls1.set i (ls1.getD i [] ++ removed) })

/-- `_lists_insert(i, element)`: binary-search the position inside bucket
`i`, shift-insert, bump `len`; split the bucket when it exceeds the upper
load factor, else point-update the tree.  `none` models the panic of
`self._lists[i]` when `i` is out of range. -/
def listsInsert (s : SortedList α) (i : Nat) (x : α) : Option (SortedList α) :=
  if i < s.lists.length then
    let bucket := s.lists.getD i []
    let pos := match sliceBinarySearch bucket x with
      | SearchResult.ok p => p
      | SearchResult.err p => p
    let bucket1 := bucket.insertIdx pos x
    let s1 : SortedList α := { s with lists := s.lists.set i bucket1, len := s.len + 1 }
    if s1.upperLoadFactor < bucket1.length then expand s1 i
    else some { s1 with indexTree := indexTreeAdd s1.indexTree s1.indexTreeOffset i 1 }
  else none

/-- `_lists_remove(i, j)`: remove `lists[i][j]` (panic — `none` — when out of
range per the explicit bound check in the source), decrement `len`, then
collapse when the bucket fell below the lower load factor (and there are at
least two buckets), else point-update the tree. -/
def listsRemove (s : SortedList α) (i j : Nat) : Option (α × SortedList α) :=
  if s.lists.length ≤ i ∨ (s.lists.getD i []).length ≤ j then none
  else do
    let bucket := s.lists.getD i []
    let removed ← bucket[j]?
    let bucket1 := bucket.eraseIdx j
    let s1 : SortedList α := { s with lists := s.lists.set i bucket1, len := s.len - 1 }
    if 1 < s1.lists.length ∧ bucket1.length < s1.lowerLoadFactor then
      let s2 ← collapse s1 i
      pure (removed, s2)
    else
      pure (removed, { s1 with indexTree := indexTreeAdd s1.indexTree s1.indexTreeOffset i (-1) })

/-- `insert(element)`: on an empty list, reset the buckets to a single empty
bucket and insert there; otherwise bisect for the bucket. -/
def insertSL (s : SortedList α) (x : α) : Option (SortedList α) :=
  if s.len = 0 then
    listsInsert { s with lists := [[]] } 0 x
  else do
    let k ← bisectRightLists s.lists x
    listsInsert s k x

/-- `remove(k)`: locate the k-th element and remove it. -/
def removeSL (s : SortedList α) (k : Nat) : Option (α × SortedList α) := do
  let ij ← locateKthElement s k
  listsRemove s ij.1 ij.2

/-- `binary_search(&element)`: `Err(0)` on empty, else bisect for the bucket,
binary-search inside it, and shift by the tree range sum of the preceding
buckets. -/
def binarySearch (s : SortedList α) (x : α) : Option SearchResult :=
  if s.len = 0 then some (SearchResult.err 0)
  else do
    let i ← bisectRightLists s.lists x
    if i = 0 then pure (sliceBinarySearch (s.lists.getD i []) x)
    else
      match sliceBinarySearch (s.lists.getD i []) x with
      | SearchResult.ok pos =>
          pure (SearchResult.ok (pos + indexTreeSum s.indexTree 0 (i - 1) 1 0 (s.indexTreeOffset - 1)))
      | SearchResult.err pos =>
          pure (SearchResult.err (pos + indexTreeSum s.indexTree 0 (i - 1) 1 0 (s.indexTreeOffset - 1)))

/-- `contains(&element)` = `binary_search(element).is_ok()`. -/
def containsSL (s : SortedList α) (x : α) : Option Bool :=
  (binarySearch s x).map (fun r => match r with
    | SearchResult.ok _ => true
    | SearchResult.err _ => false)

/-- `clear()`: empty the buckets, reset the tree to `2 * 32` zeros. -/
def clearSL (s : SortedList α) : SortedList α :=
  { s with lists := [], indexTree := List.replicate 64 0, indexTreeOffset := 32, len := 0 }

/-- `first()`: `None` when empty, else `lists.first().unwrap().first()`
(`none` models the `unwrap` panic on a missing first bucket). -/
def firstSL (s : SortedList α) : Option (Option α) :=
  if s.len = 0 then some none
  else match s.lists.head? with
    | none => none
    | some l => some l.head?

/-- `last()`: `None` when empty, else `lists.last().unwrap().last()`. -/
def lastSL (s : SortedList α) : Option (Option α) :=
  if s.len = 0 then some none
  else match s.lists.getLast? with
    | none => none
    | some l => some l.getLast?

/-- `get(index)`: `None` when empty or `len <= index`, else
`Some(kth_smallest(index))`. -/
def getSL (s : SortedList α) (index : Nat) : Option (Option α) :=
  if s.len = 0 ∨ s.len ≤ index then some none
  else (kthSmallest s index).map some

/-- `_flat` / `flatten()` / `iter()` / the `Debug` view: the concatenation of
the buckets in order. -/
def flattenSL (s : SortedList α) : List α := s.lists.flatten

/-- `to_vec()`: fold of `append` over the buckets — the same concatenation. -/
def toVec (s : SortedList α) : List α := s.lists.flatten

/-- The loop of `From<IntoIter<T>>::from`: push each element of the sorted
input onto the last bucket, opening a fresh empty bucket whenever the last
one reaches `load` elements.  `buildChunks load cur rest` is the loop with
current last bucket `cur` and remaining input `rest`. -/
def buildChunks (load : Nat) (cur : List α) : List α → List (List α)
  | [] => [cur]
  | x :: xs =>
    let cur1 := cur ++ [x]
    if cur1.length = load then cur1 :: buildChunks load [] xs
    else buildChunks load cur1 xs

/-- `From<IntoIter<T>>::from` (hence `From<Vec<T>>`, `From<[T; N]>`, …):
sort the batch, chunk it into buckets of `_load_factor = 1024`, set `_len`,
rebuild the tree. -/
def fromListSL (l : List α) : SortedList α :=
  rebuildIndexTree
    { (defaultSL : SortedList α) with
        lists := buildChunks 1024 [] (l.mergeSort (fun a b => a ≤ b)),
        len := l.length }

/-- States reachable through the public mutating API (`new`, the `From`
constructors, `insert`, `remove`, `clear`); a panicking call (`none`) has no
successor state. -/
inductive Reachable : SortedList α → Prop
  | new : Reachable defaultSL
  | ofList (l : List α) : Reachable (fromListSL l)
  | insert {s s' : SortedList α} {x : α} :
      Reachable s → insertSL s x = some s' → Reachable s'
  | remove {s s' : SortedList α} {k : Nat} {v : α} :
      Reachable s → removeSL s k = some (v, s') → Reachable s'
  | clear {s : SortedList α} : Reachable s → Reachable (clearSL s)

/-!
## The canonical index tree and the data-structure invariant
-/

/-- The value the index segment tree is supposed to hold at `node`: for a
leaf (`node ≥ offset`) the size of bucket `node - offset` (or `0`), for an
internal node the sum of its two children. -/
def treeVal (sz : List Nat) (offset node : Nat) : Nat :=
  if h : 1 ≤ node ∧ node < offset then
    treeVal sz offset (2 * node) + treeVal sz offset (2 * node + 1)
  else sz.getD (node - offset) 0
termination_by offset - node
decreasing_by all_goals omega

/-- The index tree is the canonical segment tree over the bucket sizes. -/
def TreeGood (t : List Nat) (sz : List Nat) (offset : Nat) : Prop :=
  t.length = 2 * offset ∧
  ∀ node, 1 ≤ node → node < 2 * offset → tget t node = treeVal sz offset node

/-- The data-structure invariant maintained by every public operation. -/
def Inv (s : SortedList α) : Prop :=
  (∃ m, 5 ≤ m ∧ s.indexTreeOffset = 2 ^ m) ∧
  s.lists.length ≤ s.indexTreeOffset ∧
  TreeGood s.indexTree (bucketSizes s.lists) s.indexTreeOffset ∧
  s.len = (bucketSizes s.lists).sum ∧
  s.lists.flatten.Sorted (· ≤ ·) ∧
  (∀ i, i + 1 < s.lists.length → s.lists.getD i [] ≠ []) ∧
  s.loadFactor = 1024 ∧ s.upperLoadFactor = 2048 ∧ s.lowerLoadFactor = 512

/-!
## Basic helper lemmas
-/

theorem tget_replicate (n p : Nat) : tget (List.replicate n 0) p = 0 := by
  simp only [tget, List.getD_eq_getElem?_getD, List.getElem?_replicate]
  split <;> rfl

theorem tget_set_self {t : List Nat} {i : Nat} (h : i < t.length) (v : Nat) :
    tget (t.set i v) i = v := by
  simp [tget, List.getD_eq_getElem?_getD, List.getElem?_set_self h]

theorem tget_set_ne {i j : Nat} (h : i ≠ j) (t : List Nat) (v : Nat) :
    tget (t.set i v) j = tget t j := by
  simp [tget, List.getD_eq_getElem?_getD, List.getElem?_set_ne h]

theorem sizeD_eq (ls : List (List α)) (i : Nat) :
    sizeD ls i = (ls.getD i []).length := by
  rcases Nat.lt_or_ge i ls.length with h | h
  · simp [sizeD, bucketSizes, List.getD_eq_getElem?_getD, List.getElem?_map,
      List.getElem?_eq_getElem h]
  · rw [sizeD, List.getD_eq_default _ _ (by simpa [bucketSizes] using h),
      List.getD_eq_default _ _ h]
    rfl

theorem sizeD_pos_lt {ls : List (List α)} {i : Nat} (h : 0 < sizeD ls i) :
    i < ls.length := by
  by_contra hc
  rw [sizeD, List.getD_eq_default _ _ (by simpa [bucketSizes] using Nat.le_of_not_lt hc)] at h
  exact Nat.lt_irrefl 0 h

/-!
## `growOffset`
-/

theorem growOffset_ge (off n : Nat) (h : 1 ≤ off) : n ≤ growOffset off n := by
  rw [growOffset]
  split
  · exact growOffset_ge (2 * off) n (by omega)
  · omega
termination_by n - off
decreasing_by omega

theorem growOffset_pow (off n : Nat) (m : Nat) (h5 : 5 ≤ m) (h : off = 2 ^ m) :
    ∃ m2, 5 ≤ m2 ∧ growOffset off n = 2 ^ m2 := by
  rw [growOffset]
  split
  · exact growOffset_pow (2 * off) n (m + 1) (by omega) (by rw [h]; ring)
  · exact ⟨m, h5, h⟩
termination_by n - off
decreasing_by
  have : 0 < off := h ▸ Nat.pos_pow_of_pos m (by omega)
  omega

/-!
## `treeVal` and rebuild correctness
-/

theorem treeVal_leaf {node offset : Nat} (h : ¬(1 ≤ node ∧ node < offset)) (sz : List Nat) :
    treeVal sz offset node = sz.getD (node - offset) 0 := by
  rw [treeVal]; simp [h]

theorem treeVal_node {node offset : Nat} (h1 : 1 ≤ node) (h2 : node < offset) (sz : List Nat) :
    treeVal sz offset node = treeVal sz offset (2 * node) + treeVal sz offset (2 * node + 1) := by
  rw [treeVal]; simp [h1, h2]

theorem treeVal_congr {sz1 sz2 : List Nat} (h : ∀ i, sz1.getD i 0 = sz2.getD i 0)
    (offset node : Nat) : treeVal sz1 offset node = treeVal sz2 offset node := by
  by_cases hn : 1 ≤ node ∧ node < offset
  · rw [treeVal_node hn.1 hn.2, treeVal_node hn.1 hn.2,
      treeVal_congr h offset (2 * node), treeVal_congr h offset (2 * node + 1)]
  · rw [treeVal_leaf hn, treeVal_leaf hn, h]
termination_by offset - node
decreasing_by all_goals omega

theorem length_setLeavesAux (t sz : List Nat) (offset n : Nat) :
    (setLeavesAux t sz offset n).length = t.length := by
  induction n with
  | zero => rfl
  | succ n ih => simp [setLeavesAux, List.length_set, ih]

theorem tget_setLeavesAux (t sz : List Nat) (offset n : Nat) (h : offset + n ≤ t.length)
    (p : Nat) :
    tget (setLeavesAux t sz offset n) p =
      if offset ≤ p ∧ p < offset + n then sz.getD (p - offset) 0 else tget t p := by
  induction n with
  | zero =>
    rw [setLeavesAux, if_neg (by omega)]
  | succ n ih =>
    rw [setLeavesAux]
    rcases eq_or_ne (offset + n) p with rfl | hne
    · rw [tget_set_self (by rw [length_setLeavesAux]; omega), if_pos (by omega)]
      congr 1
      omega
    · rw [tget_set_ne hne, ih (by omega)]
      rcases Nat.lt_or_ge p (offset + n) with hlt | hge
      · by_cases hop : offset ≤ p
        · rw [if_pos ⟨hop, hlt⟩, if_pos ⟨hop, by omega⟩]
        · rw [if_neg (by omega), if_neg (by omega)]
      · rw [if_neg (by omega), if_neg (by omega)]

theorem length_buildInternal (t : List Nat) (n : Nat) :
    (buildInternal t n).length = t.length := by
  induction n generalizing t with
  | zero => rfl
  | succ n ih => simp [buildInternal, ih, List.length_set]

theorem buildInternal_spec (sz : List Nat) (offset : Nat) :
    ∀ n t, t.length = 2 * offset → n < offset →
      (∀ p, n < p → p < 2 * offset → tget t p = treeVal sz offset p) →
      ∀ p, 1 ≤ p → p < 2 * offset → tget (buildInternal t n) p = treeVal sz offset p := by
  intro n
  induction n with
  | zero => intro t _ _ hyp p h1 h2; exact hyp p h1 h2
  | succ n ih =>
    intro t hlen hoff hyp p h1 h2
    rw [buildInternal]
    refine ih _ (by simp [List.length_set, hlen]) (by omega) ?_ p h1 h2
    intro q hq1 hq2
    rcases eq_or_ne (n + 1) q with rfl | hne
    · rw [tget_set_self (by omega),
        hyp (2 * (n + 1)) (by omega) (by omega),
        hyp (2 * (n + 1) + 1) (by omega) (by omega)]
      exact (treeVal_node (by omega) (by omega) sz).symm
    · rw [tget_set_ne hne]
      exact hyp q (by omega) hq2

theorem rebuild_lists (s : SortedList α) : (rebuildIndexTree s).lists = s.lists := rfl

theorem rebuild_len (s : SortedList α) : (rebuildIndexTree s).len = s.len := rfl

theorem rebuild_loads (s : SortedList α) :
    (rebuildIndexTree s).loadFactor = s.loadFactor ∧
    (rebuildIndexTree s).upperLoadFactor = s.upperLoadFactor ∧
    (rebuildIndexTree s).lowerLoadFactor = s.lowerLoadFactor := ⟨rfl, rfl, rfl⟩

theorem rebuild_offset_pow (s : SortedList α) :
    ∃ m, 5 ≤ m ∧ (rebuildIndexTree s).indexTreeOffset = 2 ^ m :=
  growOffset_pow 32 s.lists.length 5 (by omega) rfl

theorem rebuild_offset_ge (s : SortedList α) :
    s.lists.length ≤ (rebuildIndexTree s).indexTreeOffset :=
  growOffset_ge 32 s.lists.length (by omega)

theorem rebuild_TreeGood (s : SortedList α) :
    TreeGood (rebuildIndexTree s).indexTree (bucketSizes s.lists)
      (rebuildIndexTree s).indexTreeOffset := by
  have hge : s.lists.length ≤ growOffset 32 s.lists.length := growOffset_ge _ _ (by omega)
  have h32 : 32 ≤ growOffset 32 s.lists.length := by
    rcases growOffset_pow 32 s.lists.length 5 (by omega) rfl with ⟨m, hm, he⟩
    calc 32 = 2 ^ 5 := by norm_num
    _ ≤ 2 ^ m := Nat.pow_le_pow_right (by omega) hm
    _ = _ := he.symm
  have hoff : (rebuildIndexTree s).indexTreeOffset = growOffset 32 s.lists.length := rfl
  have htree : (rebuildIndexTree s).indexTree =
      buildInternal
        (setLeavesAux (List.replicate (2 * growOffset 32 s.lists.length) 0)
          (bucketSizes s.lists) (growOffset 32 s.lists.length) s.lists.length)
        (growOffset 32 s.lists.length - 1) := rfl
  rw [TreeGood, hoff, htree]
  constructor
  · rw [length_buildInternal, length_setLeavesAux, List.length_replicate]
  · intro node h1 h2
    refine buildInternal_spec (bucketSizes s.lists) (growOffset 32 s.lists.length) _ _
      (by rw [length_setLeavesAux, List.length_replicate]) (by omega) ?_ node h1 h2
    intro p hp1 hp2
    rw [tget_setLeavesAux _ _ _ _ (by rw [List.length_replicate]; omega)]
    have hleaf : ¬(1 ≤ p ∧ p < growOffset 32 s.lists.length) := by omega
    rw [treeVal_leaf hleaf]
    split
    · rfl
    · rw [tget_replicate]
      have hlen : (bucketSizes s.lists).length = s.lists.length := by
        simp [bucketSizes]
      rw [List.getD_eq_default]
      rw [hlen]; omega

/-!
## Leaf-range characterization of `treeVal`
-/

theorem sum_range_add_nat (f : Nat → Nat) (a b : Nat) :
    ∑ p ∈ Finset.range (a + b), f p =
      (∑ p ∈ Finset.range a, f p) + ∑ p ∈ Finset.range b, f (a + p) := by
  induction b with
  | zero => simp
  | succ b ih =>
    rw [Nat.add_succ, Finset.sum_range_succ, ih, Finset.sum_range_succ, Nat.add_assoc]

/-- The canonical tree value at a node whose subtree spans leaves
`[node * 2^k - 2^m, node * 2^k - 2^m + 2^k)` is the sum of the bucket sizes
in that leaf range. -/
theorem treeVal_sum (sz : List Nat) (m : Nat) :
    ∀ k node, 1 ≤ node → 2 ^ m ≤ node * 2 ^ k → node * 2 ^ k < 2 ^ (m + 1) →
      treeVal sz (2 ^ m) node =
        ∑ p ∈ Finset.range (2 ^ k), sz.getD (node * 2 ^ k - 2 ^ m + p) 0 := by
  intro k
  induction k with
  | zero =>
    intro node h1 h2 h3
    simp only [pow_zero, Nat.mul_one] at h2 h3 ⊢
    rw [treeVal_leaf (by omega), Finset.sum_range_one, Nat.add_zero]
  | succ k ih =>
    intro node h1 h2 h3
    have hnode : node < 2 ^ m := by
      have ha : node * 2 ≤ node * 2 ^ (k + 1) :=
        Nat.mul_le_mul_left node (Nat.one_lt_two_pow_iff.mpr (by omega))
      have hb : 2 ^ (m + 1) = 2 * 2 ^ m := by ring
      omega
    have hkm : k + 1 ≤ m + 1 := by
      by_contra hc
      have : 2 ^ (m + 1) < 2 ^ (k + 1) := Nat.pow_lt_pow_right (by omega) (by omega)
      have : 2 ^ (k + 1) ≤ node * 2 ^ (k + 1) := Nat.le_mul_of_pos_left _ h1
      omega
    have hchildL : 2 * node * 2 ^ k = node * 2 ^ (k + 1) := by ring
    have hchildR : (2 * node + 1) * 2 ^ k = node * 2 ^ (k + 1) + 2 ^ k := by ring
    have hpe : 2 ^ (m + 1 - (k + 1)) * 2 ^ (k + 1) = 2 ^ (m + 1) := by
      rw [← pow_add]; congr 1; omega
    have hRupper : node * 2 ^ (k + 1) + 2 ^ k < 2 ^ (m + 1) := by
      have hlt : node < 2 ^ (m + 1 - (k + 1)) := by
        by_contra hcon
        have : 2 ^ (m + 1 - (k + 1)) * 2 ^ (k + 1) ≤ node * 2 ^ (k + 1) :=
          Nat.mul_le_mul_right _ (by omega)
        omega
      have hmul : (node + 1) * 2 ^ (k + 1) ≤ 2 ^ (m + 1 - (k + 1)) * 2 ^ (k + 1) :=
        Nat.mul_le_mul_right _ (by omega)
      have hks : 2 ^ k < 2 ^ (k + 1) := Nat.pow_lt_pow_right (by omega) (by omega)
      have hexp : (node + 1) * 2 ^ (k + 1) = node * 2 ^ (k + 1) + 2 ^ (k + 1) := by ring
      omega
    have hbL1 : 2 ^ m ≤ 2 * node * 2 ^ k := by rw [hchildL]; exact h2
    have hbL2 : 2 * node * 2 ^ k < 2 ^ (m + 1) := by
      rw [hchildL]
      have hks : 0 < 2 ^ k := Nat.pos_pow_of_pos k (by omega)
      omega
    have hbR1 : 2 ^ m ≤ (2 * node + 1) * 2 ^ k :=
      le_trans hbL1 (Nat.mul_le_mul_right _ (by omega))
    have hbR2 : (2 * node + 1) * 2 ^ k < 2 ^ (m + 1) := by rw [hchildR]; exact hRupper
    rw [treeVal_node h1 hnode,
      ih (2 * node) (by omega) hbL1 hbL2,
      ih (2 * node + 1) (by omega) hbR1 hbR2]
    have hsplit : Finset.range ((2:Nat) ^ (k + 1)) = Finset.range (2 ^ k + 2 ^ k) := by
      congr 1
      rw [pow_succ]
      omega
    rw [hsplit, sum_range_add_nat]
    congr 1
    · refine Finset.sum_congr rfl ?_
      intro p _
      rw [hchildL]
    · refine Finset.sum_congr rfl ?_
      intro p _
      congr 1
      have := Nat.pos_pow_of_pos k (show 0 < 2 by omega)
      omega

theorem sum_range_getD (sz : List Nat) : ∀ N, sz.length ≤ N →
    ∑ p ∈ Finset.range N, sz.getD p 0 = sz.sum := by
  induction sz with
  | nil =>
    intro N _
    simp
  | cons a tl ih =>
    intro N hN
    obtain ⟨n, rfl⟩ : ∃ n, N = n + 1 := ⟨N - 1, by simp at hN; omega⟩
    rw [Finset.sum_range_succ']
    simp only [List.getD_cons_succ, List.getD_cons_zero]
    rw [ih n (by simp at hN; omega), List.sum_cons, Nat.add_comm]

/-- The root of the canonical tree holds the total number of elements. -/
theorem treeVal_root (sz : List Nat) (m : Nat) (h : sz.length ≤ 2 ^ m) :
    treeVal sz (2 ^ m) 1 = sz.sum := by
  rw [treeVal_sum sz m m 1 (by omega) (by omega) (by
    have : (2:Nat) ^ m < 2 ^ (m + 1) := Nat.pow_lt_pow_right (by omega) (by omega)
    omega)]
  rw [← sum_range_getD sz (2 ^ m) h]
  refine Finset.sum_congr rfl ?_
  intro p _
  congr 1
  omega

/-!
## Point update (`_index_tree_add`) preserves `TreeGood`
-/

/-- Every node of the tree has a well-defined level: multiplying by a power
of two lands it in the leaf band `[2^m, 2^(m+1))`. -/
theorem exists_level (m : Nat) (q : Nat) (h1 : 1 ≤ q) (h2 : q < 2 ^ (m + 1)) :
    ∃ k, 2 ^ m ≤ q * 2 ^ k ∧ q * 2 ^ k < 2 ^ (m + 1) := by
  rcases Nat.lt_or_ge q (2 ^ m) with hlt | hge
  · obtain ⟨k, hk1, hk2⟩ := exists_level m (2 * q) (by omega) (by
      have : 2 ^ (m + 1) = 2 * 2 ^ m := by ring
      omega)
    exact ⟨k + 1, by rw [pow_succ]; calc 2 ^ m ≤ 2 * q * 2 ^ k := hk1
                                     _ = q * (2 ^ k * 2) := by ring,
           by rw [pow_succ]; calc q * (2 ^ k * 2) = 2 * q * 2 ^ k := by ring
                                     _ < 2 ^ (m + 1) := hk2⟩
  · exact ⟨0, by simpa using hge, by simpa using h2⟩
termination_by 2 ^ (m + 1) - q
decreasing_by omega

/-- A node that is not an ancestor of leaf `2^m + i` has the same canonical
value after the size of bucket `i` changes. -/
theorem treeVal_update_ne (sz sz2 : List Nat) (m i : Nat) (hi : i < 2 ^ m)
    (hagree : ∀ j, j ≠ i → sz.getD j 0 = sz2.getD j 0)
    (node : Nat) (h1 : 1 ≤ node) (h2 : node < 2 ^ (m + 1))
    (hne : ∀ d, node ≠ (2 ^ m + i) / 2 ^ d) :
    treeVal sz (2 ^ m) node = treeVal sz2 (2 ^ m) node := by
  obtain ⟨k, hk1, hk2⟩ := exists_level m node h1 h2
  rw [treeVal_sum sz m k node h1 hk1 hk2, treeVal_sum sz2 m k node h1 hk1 hk2]
  refine Finset.sum_congr rfl ?_
  intro p hp
  rw [Finset.mem_range] at hp
  refine hagree _ ?_
  intro he
  have he2 : 2 ^ m + i = p + node * 2 ^ k := by omega
  have : (2 ^ m + i) / 2 ^ k = node := by
    rw [he2, Nat.add_mul_div_right _ _ (Nat.pos_pow_of_pos k (by omega)),
      Nat.div_eq_of_lt hp, Nat.zero_add]
  exact hne k this.symm

/-- Correctness of the upward propagation loop: starting from the parent of
leaf `L` with every non-ancestor (above the start) already holding its
canonical value `g`, the loop makes the whole tree canonical. -/
theorem propagateUp_spec (g : Nat → Nat) (m L : Nat) (hL2 : L < 2 ^ (m + 1))
    (hg : ∀ q, 1 ≤ q → q < 2 ^ m → g q = g (2 * q) + g (2 * q + 1))
    (c : Nat) (hc : 1 ≤ c) (t : List Nat)
    (hlen : t.length = 2 ^ (m + 1))
    (H1 : ∀ q, 1 ≤ q → q < 2 ^ (m + 1) → (∀ d, c ≤ d → q ≠ L / 2 ^ d) → tget t q = g q) :
    (propagateUp t (L / 2 ^ c)).length = 2 ^ (m + 1) ∧
    (∀ q, 1 ≤ q → q < 2 ^ (m + 1) → tget (propagateUp t (L / 2 ^ c)) q = g q) := by
  by_cases hnode : 1 ≤ L / 2 ^ c
  · have hcm : c + 1 ≤ m + 1 := by
      have h2c : 2 ^ c ≤ L := by
        by_contra hcon
        rw [Nat.div_eq_of_lt (by omega)] at hnode
        omega
      by_contra hcon
      have : 2 ^ (m + 1) ≤ 2 ^ c := Nat.pow_le_pow_right (by omega) (by omega)
      omega
    have hdiv : L / 2 ^ c / 2 = L / 2 ^ (c + 1) := by
      rw [Nat.div_div_eq_div_mul, pow_succ]
    have hpow : 2 ^ (m + 1) = 2 * 2 ^ m := by ring
    have hub : L / 2 ^ c < 2 ^ m := by
      have ha : L / 2 ^ c ≤ L / 2 ^ 1 :=
        Nat.div_le_div_left (Nat.pow_le_pow_right (by omega) hc) (by omega)
      have hb : 2 ^ 1 = 2 := by norm_num
      rw [hb] at ha
      omega
    have hanc : ∀ d, c ≤ d → L / 2 ^ d ≤ L / 2 ^ c := by
      intro d hd
      exact Nat.div_le_div_left (Nat.pow_le_pow_right (by omega) hd) (Nat.pos_pow_of_pos c (by omega))
    rw [propagateUp, if_pos hnode, hdiv]
    refine propagateUp_spec g m L hL2 hg (c + 1) (by omega) _
      (by rw [List.length_set, hlen]) ?_
    intro q hq1 hq2 hqne
    rcases eq_or_ne q (L / 2 ^ c) with rfl | hne
    · rw [tget_set_self (by omega)]
      rw [H1 (2 * (L / 2 ^ c)) (by omega) (by omega)
        (by intro d hd; have := hanc d hd; omega)]
      rw [H1 (2 * (L / 2 ^ c) + 1) (by omega) (by omega)
        (by intro d hd; have := hanc d hd; omega)]
      exact (hg (L / 2 ^ c) hnode hub).symm
    · rw [tget_set_ne (by omega)]
      refine H1 q hq1 hq2 ?_
      intro d hd
      rcases eq_or_lt_of_le hd with rfl | hlt
      · exact hne
      · exact hqne d (by omega)
  · rw [propagateUp, if_neg hnode]
    refine ⟨hlen, ?_⟩
    intro q hq1 hq2
    refine H1 q hq1 hq2 ?_
    intro d hd
    have : L / 2 ^ d ≤ L / 2 ^ c :=
      Nat.div_le_div_left (Nat.pow_le_pow_right (by omega) hd) (Nat.pos_pow_of_pos c (by omega))
    omega
termination_by m + 2 - c
decreasing_by omega

/-- `_index_tree_add` keeps the tree canonical when bucket `i`'s size changes
by `val` (the two `±` branches of the source). -/
theorem indexTreeAdd_TreeGood (t sz sz2 : List Nat) (m i : Nat) (val : Int)
    (hTG : TreeGood t sz (2 ^ m)) (hi : i < 2 ^ m)
    (hagree : ∀ j, j ≠ i → sz.getD j 0 = sz2.getD j 0)
    (hval : sz2.getD i 0 =
      if 0 ≤ val then sz.getD i 0 + val.toNat else sz.getD i 0 - (-val).toNat) :
    TreeGood (indexTreeAdd t (2 ^ m) i val) sz2 (2 ^ m) := by
  have hp : (2:Nat) ^ (m + 1) = 2 * 2 ^ m := by ring
  have hlen2 : t.length = 2 ^ (m + 1) := by rw [hp]; exact hTG.1
  have hL : 2 ^ m + i < 2 ^ (m + 1) := by omega
  have htleaf : tget t (2 ^ m + i) = sz.getD i 0 := by
    rw [hTG.2 (2 ^ m + i) (by
        have := Nat.pos_pow_of_pos m (show 0 < 2 by omega)
        omega) (by omega),
      treeVal_leaf (by
        have := Nat.pos_pow_of_pos m (show 0 < 2 by omega)
        omega)]
    congr 1
    omega
  have ht1 : (if 0 ≤ val then t.set (2 ^ m + i) (tget t (2 ^ m + i) + val.toNat)
      else t.set (2 ^ m + i) (tget t (2 ^ m + i) - (-val).toNat)) =
      t.set (2 ^ m + i) (sz2.getD i 0) := by
    rw [htleaf, hval]
    split <;> rfl
  have hmain := propagateUp_spec (treeVal sz2 (2 ^ m)) m (2 ^ m + i) hL
    (fun q hq1 hq2 => treeVal_node hq1 hq2 sz2) 1 (by omega)
    (t.set (2 ^ m + i) (sz2.getD i 0))
    (by rw [List.length_set, hlen2]) ?_
  · have hcall : indexTreeAdd t (2 ^ m) i val =
        propagateUp (t.set (2 ^ m + i) (sz2.getD i 0)) ((2 ^ m + i) / 2 ^ 1) := by
      rw [indexTreeAdd, ht1, pow_one]
    constructor
    · rw [hcall, ← hp]
      exact hmain.1
    · intro node h1 h2
      rw [hcall]
      exact hmain.2 node h1 (by omega)
  · intro q hq1 hq2 hqne
    rcases eq_or_ne q (2 ^ m + i) with rfl | hne
    · rw [tget_set_self (by omega)]
      rw [treeVal_leaf (by
          have := Nat.pos_pow_of_pos m (show 0 < 2 by omega)
          omega)]
      congr 1
      omega
    · rw [tget_set_ne (fun he => hne he.symm)]
      rw [hTG.2 q hq1 (by omega)]
      refine treeVal_update_ne sz sz2 m i hi hagree q hq1 hq2 ?_
      intro d
      match d with
      | 0 => simpa using hne
      | Nat.succ d2 => exact hqne (d2 + 1) (by omega)

/-!
## Correctness of the rank descent (`_locate_kth_element`)
-/

theorem locateAux_spec (t sz : List Nat) (m : Nat) (hTG : TreeGood t sz (2 ^ m)) :
    ∀ k node cnt, 1 ≤ node → 2 ^ m ≤ node * 2 ^ k → node * 2 ^ k < 2 ^ (m + 1) →
      1 ≤ cnt → cnt ≤ treeVal sz (2 ^ m) node →
      ∃ i j, locateAux t (2 ^ m) node cnt = (i, j) ∧
        node * 2 ^ k - 2 ^ m ≤ i ∧ i < node * 2 ^ k - 2 ^ m + 2 ^ k ∧
        j < sz.getD i 0 ∧
        (∑ p ∈ Finset.Ico (node * 2 ^ k - 2 ^ m) i, sz.getD p 0) + j + 1 = cnt := by
  intro k
  induction k with
  | zero =>
    intro node cnt h1 h2 h3 hc1 hc2
    simp only [pow_zero, Nat.mul_one] at h2 h3
    rw [treeVal_leaf (by omega)] at hc2
    refine ⟨node - 2 ^ m, cnt - 1, ?_, ?_, ?_, ?_, ?_⟩
    · rw [locateAux, dif_neg (by omega)]
    · simp only [pow_zero, Nat.mul_one]
      omega
    · simp only [pow_zero, Nat.mul_one]
      omega
    · omega
    · simp only [pow_zero, Nat.mul_one, Finset.Ico_self, Finset.sum_empty, Nat.zero_add]
      omega
  | succ k ih =>
    intro node cnt h1 h2 h3 hc1 hc2
    have hnode : node < 2 ^ m := by
      have ha : node * 2 ≤ node * 2 ^ (k + 1) :=
        Nat.mul_le_mul_left node (Nat.one_lt_two_pow_iff.mpr (by omega))
      have hb : 2 ^ (m + 1) = 2 * 2 ^ m := by ring
      omega
    have hchildL : 2 * node * 2 ^ k = node * 2 ^ (k + 1) := by ring
    have hchildR : (2 * node + 1) * 2 ^ k = node * 2 ^ (k + 1) + 2 ^ k := by ring
    have hpe : 2 ^ (m + 1 - (k + 1)) * 2 ^ (k + 1) = 2 ^ (m + 1) := by
      rw [← pow_add]
      congr 1
      have hkm : k + 1 ≤ m + 1 := by
        by_contra hc
        have h2l : 2 ^ (m + 1) < 2 ^ (k + 1) := Nat.pow_lt_pow_right (by omega) (by omega)
        have h2r : 2 ^ (k + 1) ≤ node * 2 ^ (k + 1) := Nat.le_mul_of_pos_left _ h1
        omega
      omega
    have hRupper : node * 2 ^ (k + 1) + 2 ^ k < 2 ^ (m + 1) := by
      have hlt : node < 2 ^ (m + 1 - (k + 1)) := by
        by_contra hcon
        have : 2 ^ (m + 1 - (k + 1)) * 2 ^ (k + 1) ≤ node * 2 ^ (k + 1) :=
          Nat.mul_le_mul_right _ (by omega)
        omega
      have hmul : (node + 1) * 2 ^ (k + 1) ≤ 2 ^ (m + 1 - (k + 1)) * 2 ^ (k + 1) :=
        Nat.mul_le_mul_right _ (by omega)
      have hks : 2 ^ k < 2 ^ (k + 1) := Nat.pow_lt_pow_right (by omega) (by omega)
      have hexp : (node + 1) * 2 ^ (k + 1) = node * 2 ^ (k + 1) + 2 ^ (k + 1) := by ring
      omega
    have hbL1 : 2 ^ m ≤ 2 * node * 2 ^ k := by rw [hchildL]; exact h2
    have hbL2 : 2 * node * 2 ^ k < 2 ^ (m + 1) := by
      rw [hchildL]
      have hks : 0 < 2 ^ k := Nat.pos_pow_of_pos k (by omega)
      omega
    have hbR1 : 2 ^ m ≤ (2 * node + 1) * 2 ^ k :=
      le_trans hbL1 (Nat.mul_le_mul_right _ (by omega))
    have hbR2 : (2 * node + 1) * 2 ^ k < 2 ^ (m + 1) := by rw [hchildR]; exact hRupper
    have htl : tget t (2 * node) = treeVal sz (2 ^ m) (2 * node) :=
      hTG.2 (2 * node) (by omega) (by omega)
    have hnodeval : treeVal sz (2 ^ m) node =
        treeVal sz (2 ^ m) (2 * node) + treeVal sz (2 ^ m) (2 * node + 1) :=
      treeVal_node h1 hnode sz
    rw [locateAux, dif_pos ⟨h1, hnode⟩]
    by_cases hcase : cnt ≤ tget t (2 * node)
    · rw [if_pos hcase]
      obtain ⟨i, j, heq, hi1, hi2, hj, hsum⟩ :=
        ih (2 * node) cnt (by omega) hbL1 hbL2 hc1 (by rw [← htl]; exact hcase)
      refine ⟨i, j, heq, ?_, ?_, hj, ?_⟩
      · rw [hchildL] at hi1; exact hi1
      · rw [hchildL] at hi2
        have hks : 2 ^ k ≤ 2 ^ (k + 1) := Nat.pow_le_pow_right (by omega) (by omega)
        omega
      · rw [hchildL] at hsum; exact hsum
    · rw [if_neg hcase]
      have hcnt2 : 1 ≤ cnt - tget t (2 * node) := by omega
      have hcnt3 : cnt - tget t (2 * node) ≤ treeVal sz (2 ^ m) (2 * node + 1) := by
        rw [htl] at hcase ⊢
        omega
      obtain ⟨i, j, heq, hi1, hi2, hj, hsum⟩ :=
        ih (2 * node + 1) (cnt - tget t (2 * node)) (by omega) hbR1 hbR2 hcnt2 hcnt3
      have hLv : tget t (2 * node) =
          ∑ p ∈ Finset.Ico (node * 2 ^ (k + 1) - 2 ^ m) (node * 2 ^ (k + 1) - 2 ^ m + 2 ^ k),
            sz.getD p 0 := by
        rw [htl, treeVal_sum sz m k (2 * node) (by omega) hbL1 hbL2,
          Finset.sum_Ico_eq_sum_range]
        refine Finset.sum_congr (by congr 1; omega) ?_
        intro p _
        congr 1
        rw [hchildL]
      refine ⟨i, j, heq, ?_, ?_, hj, ?_⟩
      · rw [hchildR] at hi1; omega
      · rw [hchildR] at hi2
        have hks : 2 ^ k + 2 ^ k = 2 ^ (k + 1) := by rw [pow_succ]; omega
        omega
      · rw [hchildR] at hi1 hsum
        have hsplit : Finset.Ico (node * 2 ^ (k + 1) - 2 ^ m) i =
            Finset.Ico (node * 2 ^ (k + 1) - 2 ^ m) (node * 2 ^ (k + 1) - 2 ^ m + 2 ^ k) ∪
            Finset.Ico (node * 2 ^ (k + 1) - 2 ^ m + 2 ^ k) i := by
          rw [Finset.Ico_union_Ico_eq_Ico (by omega) (by omega)]
        have hdisj : Disjoint
            (Finset.Ico (node * 2 ^ (k + 1) - 2 ^ m) (node * 2 ^ (k + 1) - 2 ^ m + 2 ^ k))
            (Finset.Ico (node * 2 ^ (k + 1) - 2 ^ m + 2 ^ k) i) := by
          apply Finset.Ico_disjoint_Ico_consecutive
        rw [hsplit, Finset.sum_union hdisj, ← hLv]
        have hIcoEq : node * 2 ^ (k + 1) + 2 ^ k - 2 ^ m =
            node * 2 ^ (k + 1) - 2 ^ m + 2 ^ k := by omega
        rw [hIcoEq] at hsum
        omega

/-!
## Correctness of the range query (`_index_tree_sum`)
-/

theorem indexTreeSum_spec (t sz : List Nat) (m : Nat) (hTG : TreeGood t sz (2 ^ m))
    (ql qr : Nat) :
    ∀ k node l r, 1 ≤ node → 2 ^ m ≤ node * 2 ^ k → node * 2 ^ k < 2 ^ (m + 1) →
      l = node * 2 ^ k - 2 ^ m → r = l + 2 ^ k - 1 →
      indexTreeSum t ql qr node l r =
        ∑ p ∈ Finset.Ico l (l + 2 ^ k), (if ql ≤ p ∧ p ≤ qr then sz.getD p 0 else 0) := by
  intro k
  induction k with
  | zero =>
    intro node l r h1 h2 h3 hl hr
    simp only [pow_zero, Nat.mul_one] at h2 h3 hl hr ⊢
    subst hl
    have hr2 : r = node - 2 ^ m := by omega
    subst hr2
    have hsingle : Finset.Ico (node - 2 ^ m) (node - 2 ^ m + 1) = {node - 2 ^ m} := by
      ext p
      simp only [Finset.mem_Ico, Finset.mem_singleton]
      omega
    rw [hsingle, Finset.sum_singleton, indexTreeSum]
    by_cases hfull : ql ≤ node - 2 ^ m ∧ node - 2 ^ m ≤ qr
    · rw [if_pos hfull, hTG.2 node (by omega) (by omega), treeVal_leaf (by omega),
        if_pos hfull]
    · rw [if_neg hfull, if_pos (by omega), if_neg hfull]
  | succ k ih =>
    intro node l r h1 h2 h3 hl hr
    have hnode : node < 2 ^ m := by
      have ha : node * 2 ≤ node * 2 ^ (k + 1) :=
        Nat.mul_le_mul_left node (Nat.one_lt_two_pow_iff.mpr (by omega))
      have hb : 2 ^ (m + 1) = 2 * 2 ^ m := by ring
      omega
    have hchildL : 2 * node * 2 ^ k = node * 2 ^ (k + 1) := by ring
    have hchildR : (2 * node + 1) * 2 ^ k = node * 2 ^ (k + 1) + 2 ^ k := by ring
    have hpow1 : (2:Nat) ^ (k + 1) = 2 ^ k + 2 ^ k := by rw [pow_succ]; omega
    have hkpos : 0 < (2:Nat) ^ k := Nat.pos_pow_of_pos k (by omega)
    have hpe : 2 ^ (m + 1 - (k + 1)) * 2 ^ (k + 1) = 2 ^ (m + 1) := by
      rw [← pow_add]
      congr 1
      have hkm : k + 1 ≤ m + 1 := by
        by_contra hc
        have h2l : 2 ^ (m + 1) < 2 ^ (k + 1) := Nat.pow_lt_pow_right (by omega) (by omega)
        have h2r : 2 ^ (k + 1) ≤ node * 2 ^ (k + 1) := Nat.le_mul_of_pos_left _ h1
        omega
      omega
    have hRupper : node * 2 ^ (k + 1) + 2 ^ k < 2 ^ (m + 1) := by
      have hlt : node < 2 ^ (m + 1 - (k + 1)) := by
        by_contra hcon
        have : 2 ^ (m + 1 - (k + 1)) * 2 ^ (k + 1) ≤ node * 2 ^ (k + 1) :=
          Nat.mul_le_mul_right _ (by omega)
        omega
      have hmul : (node + 1) * 2 ^ (k + 1) ≤ 2 ^ (m + 1 - (k + 1)) * 2 ^ (k + 1) :=
        Nat.mul_le_mul_right _ (by omega)
      have hexp : (node + 1) * 2 ^ (k + 1) = node * 2 ^ (k + 1) + 2 ^ (k + 1) := by ring
      omega
    have hbL1 : 2 ^ m ≤ 2 * node * 2 ^ k := by rw [hchildL]; exact h2
    have hbL2 : 2 * node * 2 ^ k < 2 ^ (m + 1) := by rw [hchildL]; omega
    have hbR1 : 2 ^ m ≤ (2 * node + 1) * 2 ^ k :=
      le_trans hbL1 (Nat.mul_le_mul_right _ (by omega))
    have hbR2 : (2 * node + 1) * 2 ^ k < 2 ^ (m + 1) := by rw [hchildR]; exact hRupper
    rw [indexTreeSum]
    split_ifs with hfull hdis
    · rw [hTG.2 node h1 (by omega), treeVal_sum sz m (k + 1) node h1 h2 h3]
      rw [Finset.sum_Ico_eq_sum_range]
      have hw : l + 2 ^ (k + 1) - l = 2 ^ (k + 1) := by omega
      rw [hw]
      refine Finset.sum_congr rfl ?_
      intro p hp
      rw [Finset.mem_range] at hp
      rw [if_pos (by omega), hl]
    · symm
      refine Finset.sum_eq_zero ?_
      intro p hp
      rw [Finset.mem_Ico] at hp
      rw [if_neg (by omega)]
    · have hmid : (l + r) / 2 = l + 2 ^ k - 1 := by omega
      rw [hmid]
      rw [ih (2 * node) l (l + 2 ^ k - 1) (by omega) hbL1 hbL2 (by rw [hchildL]; omega)
        (by omega)]
      rw [ih (2 * node + 1) (l + 2 ^ k - 1 + 1) r (by omega) hbR1 hbR2
        (by rw [hchildR]; omega) (by rw [hchildR] at hbR1; omega)]
      have he1 : l + 2 ^ k - 1 + 1 = l + 2 ^ k := by omega
      rw [he1]
      have hsplit : Finset.Ico l (l + 2 ^ (k + 1)) =
          Finset.Ico l (l + 2 ^ k) ∪ Finset.Ico (l + 2 ^ k) (l + 2 ^ k + 2 ^ k) := by
        rw [Finset.Ico_union_Ico_eq_Ico (by omega) (by omega)]
        congr 1
        omega
      rw [hsplit, Finset.sum_union (Finset.Ico_disjoint_Ico_consecutive _ _ _)]

/-- The prefix sum `_index_tree_sum(0, qr, ..)` computed by `binary_search`
is the number of elements in buckets `0..=qr`. -/
theorem indexTreeSum_prefix_eq (t sz : List Nat) (m : Nat) (hTG : TreeGood t sz (2 ^ m))
    (qr : Nat) (hqr : qr < 2 ^ m) :
    indexTreeSum t 0 qr 1 0 (2 ^ m - 1) = ∑ p ∈ Finset.range (qr + 1), sz.getD p 0 := by
  have hm1 : (2:Nat) ^ m < 2 ^ (m + 1) := Nat.pow_lt_pow_right (by omega) (by omega)
  have hmain := indexTreeSum_spec t sz m hTG 0 qr m 1 0 (2 ^ m - 1) (by omega) (by omega)
    (by omega) (by omega) (by omega)
  rw [hmain]
  have hI : Finset.Ico 0 (0 + 2 ^ m) = Finset.range (2 ^ m) := by
    rw [Nat.zero_add, Finset.range_eq_Ico]
  rw [hI]
  have hstep : ∑ p ∈ Finset.range (2 ^ m), (if 0 ≤ p ∧ p ≤ qr then sz.getD p 0 else 0) =
      ∑ p ∈ Finset.range (qr + 1), (if 0 ≤ p ∧ p ≤ qr then sz.getD p 0 else 0) := by
    symm
    refine Finset.sum_subset (Finset.range_subset.mpr (by omega)) ?_
    intro p hp hnp
    rw [Finset.mem_range] at hnp
    rw [if_neg (by omega)]
  rw [hstep]
  refine Finset.sum_congr rfl ?_
  intro p hp
  rw [Finset.mem_range] at hp
  rw [if_pos (by omega)]

/-!
## Indexing the flattened view
-/

theorem flatten_length_eq (ls : List (List α)) :
    ls.flatten.length = (bucketSizes ls).sum := by
  rw [List.length_flatten, bucketSizes]

theorem sizeD_cons_zero (a : List α) (tl : List (List α)) : sizeD (a :: tl) 0 = a.length := rfl

theorem sizeD_cons_succ (a : List α) (tl : List (List α)) (p : Nat) :
    sizeD (a :: tl) (p + 1) = sizeD tl p := rfl

theorem flatten_getElem? (ls : List (List α)) :
    ∀ i j, i < ls.length → j < (ls.getD i []).length →
      ls.flatten[(∑ p ∈ Finset.range i, sizeD ls p) + j]? = (ls.getD i [])[j]? := by
  induction ls with
  | nil => intro i j hi _; simp at hi
  | cons a tl ih =>
    intro i j hi hj
    match i with
    | 0 =>
      simp only [Finset.range_zero, Finset.sum_empty, Nat.zero_add, List.getD_cons_zero] at hj ⊢
      rw [List.flatten_cons, List.getElem?_append, if_pos hj]
    | Nat.succ i2 =>
      have hsum : ∑ p ∈ Finset.range (i2 + 1), sizeD (a :: tl) p =
          a.length + ∑ p ∈ Finset.range i2, sizeD tl p := by
        rw [Finset.sum_range_succ']
        simp only [sizeD_cons_succ, sizeD_cons_zero]
        omega
      rw [hsum, List.flatten_cons]
      have hidx : a.length + (∑ p ∈ Finset.range i2, sizeD tl p) + j =
          a.length + ((∑ p ∈ Finset.range i2, sizeD tl p) + j) := by omega
      rw [hidx, List.getElem?_append_right (by omega), Nat.add_sub_cancel_left]
      simp only [List.getD_cons_succ] at hj ⊢
      exact ih i2 j (by simpa using hi) hj

/-!
## `kth_smallest` / `_locate_kth_element` correctness under the invariant
-/

theorem locateKth_spec (s : SortedList α) (hInv : Inv s) (k : Nat) (hk : k < s.len) :
    ∃ i j, locateKthElement s k = some (i, j) ∧ i < s.lists.length ∧
      j < (s.lists.getD i []).length ∧
      (∑ p ∈ Finset.range i, sizeD s.lists p) + j = k := by
  obtain ⟨⟨m, hm5, hmo⟩, hlen_off, hTG, hlen, hsorted, hne, hl1, hl2, hl3⟩ := hInv
  rw [hmo] at hTG hlen_off
  have hroot : treeVal (bucketSizes s.lists) (2 ^ m) 1 = (bucketSizes s.lists).sum :=
    treeVal_root _ m (by simpa [bucketSizes] using hlen_off)
  obtain ⟨i, j, heq, hi1, hi2, hj, hsum⟩ :=
    locateAux_spec s.indexTree (bucketSizes s.lists) m hTG m 1 (k + 1) (by omega)
      (by omega) (by
        have : (2:Nat) ^ m < 2 ^ (m + 1) := Nat.pow_lt_pow_right (by omega) (by omega)
        omega)
      (by omega) (by rw [hroot]; omega)
  simp only [Nat.one_mul, Nat.sub_self] at hi1 hi2 hsum
  refine ⟨i, j, ?_, ?_, ?_, ?_⟩
  · rw [locateKthElement, if_neg (by omega), hmo]
    rw [heq]
  · exact sizeD_pos_lt (show 0 < sizeD s.lists i from by
      show 0 < (bucketSizes s.lists).getD i 0
      omega)
  · rw [← sizeD_eq]
    exact hj
  · have hIr : Finset.Ico 0 i = Finset.range i := by rw [Finset.range_eq_Ico]
    rw [hIr] at hsum
    show (∑ p ∈ Finset.range i, (bucketSizes s.lists).getD p 0) + j = k
    omega

/-- `kth_smallest(k)` returns the `k`-th element of the flattened sorted
view when `k < len`. -/
theorem kthSmallest_spec (s : SortedList α) (hInv : Inv s) (k : Nat) (hk : k < s.len) :
    kthSmallest s k = s.lists.flatten[k]? := by
  obtain ⟨i, j, heq, hi, hj, hsum⟩ := locateKth_spec s hInv k hk
  rw [kthSmallest, heq]
  show atSL s i j = _
  rw [atSL, ← hsum, flatten_getElem? s.lists i j hi hj]

/-- `kth_smallest(k)` panics when `k ≥ len`. -/
theorem kthSmallest_oob (s : SortedList α) (k : Nat) (hk : s.len ≤ k) :
    kthSmallest s k = none := by
  rw [kthSmallest, locateKthElement, if_pos hk]
  rfl

/-!
## Order and membership helpers
-/

theorem sorted_le_of_getElem? {as : List α} (hs : as.Sorted (· ≤ ·)) {i j : Nat}
    (hij : i ≤ j) {vi vj : α} (hvi : as[i]? = some vi) (hvj : as[j]? = some vj) : vi ≤ vj := by
  have hj : j < as.length := by
    by_contra hc
    rw [List.getElem?_eq_none (by omega)] at hvj
    cases hvj
  have hi : i < as.length := by omega
  rw [List.getElem?_eq_getElem hi] at hvi
  rw [List.getElem?_eq_getElem hj] at hvj
  have := List.pairwise_iff_get.mp hs ⟨i, hi⟩ ⟨j, hj⟩
  rcases eq_or_lt_of_le hij with rfl | hlt
  · cases hvi
    cases hvj
    exact le_refl _
  · have hle := this hlt
    simp only [List.get_eq_getElem] at hle
    cases hvi
    cases hvj
    exact hle

theorem mem_take_getElem? {l : List α} {p : Nat} {e : α} (he : e ∈ l.take p) :
    ∃ n, n < p ∧ l[n]? = some e := by
  obtain ⟨n, hn⟩ := List.mem_iff_getElem?.mp he
  rw [List.getElem?_take] at hn
  by_cases hc : n < p
  · exact ⟨n, hc, by rwa [if_pos hc] at hn⟩
  · rw [if_neg hc] at hn
    cases hn

theorem mem_drop_getElem? {l : List α} {p : Nat} {e : α} (he : e ∈ l.drop p) :
    ∃ n, l[p + n]? = some e := by
  obtain ⟨n, hn⟩ := List.mem_iff_getElem?.mp he
  rw [List.getElem?_drop] at hn
  exact ⟨n, hn⟩

theorem countP_eq_of_split (as : List α) (x : α) (p : Nat) (hp : p ≤ as.length)
    (hbefore : ∀ idx v, idx < p → as[idx]? = some v → v < x)
    (hafter : ∀ idx v, p ≤ idx → as[idx]? = some v → ¬ v < x) :
    as.countP (fun v => decide (v < x)) = p := by
  have hcalc : as.countP (fun v => decide (v < x)) =
      (as.take p).countP (fun v => decide (v < x)) +
      (as.drop p).countP (fun v => decide (v < x)) := by
    rw [← List.countP_append, List.take_append_drop]
  rw [hcalc]
  have h1 : (as.take p).countP (fun v => decide (v < x)) = (as.take p).length := by
    rw [List.countP_eq_length]
    intro a ha
    obtain ⟨n, hn, hget⟩ := mem_take_getElem? ha
    simpa using hbefore n a hn hget
  have h2 : (as.drop p).countP (fun v => decide (v < x)) = 0 := by
    rw [List.countP_eq_zero]
    intro a ha
    obtain ⟨n, hget⟩ := mem_drop_getElem? ha
    simpa using hafter (p + n) a (by omega) hget
  rw [h1, h2, List.length_take]
  omega

/-!
## Contract of Rust `std`'s slice binary search on a sorted bucket
-/

theorem sbsGo_spec (as : List α) (x : α) (hs : as.Sorted (· ≤ ·)) :
    ∀ left right, left ≤ right → right ≤ as.length →
      (∀ idx v, idx < left → as[idx]? = some v → v < x) →
      (∀ idx v, right ≤ idx → as[idx]? = some v → x < v) →
      (∃ p, sbsGo as x left right = SearchResult.ok p ∧ as[p]? = some x) ∨
      (∃ p, sbsGo as x left right = SearchResult.err p ∧ p ≤ as.length ∧
        (∀ idx v, idx < p → as[idx]? = some v → v < x) ∧
        (∀ idx v, p ≤ idx → as[idx]? = some v → x < v)) := by
  intro left right h1 h2 hlo hhi
  by_cases h : left < right
  · have hmidlt : left + (right - left) / 2 < right := by omega
    have hmidmem : as[left + (right - left) / 2]? =
        some (as.getD (left + (right - left) / 2) x) := by
      rw [List.getD_eq_getElem?_getD, List.getElem?_eq_getElem (by omega)]
      rfl
    have hstep : sbsGo as x left right =
        if as.getD (left + (right - left) / 2) x < x then
          sbsGo as x (left + (right - left) / 2 + 1) right
        else if x < as.getD (left + (right - left) / 2) x then
          sbsGo as x left (left + (right - left) / 2)
        else SearchResult.ok (left + (right - left) / 2) := by
      rw [sbsGo, dif_pos h]
    by_cases hv1 : as.getD (left + (right - left) / 2) x < x
    · rw [hstep, if_pos hv1]
      refine sbsGo_spec as x hs (left + (right - left) / 2 + 1) right (by omega) h2 ?_ hhi
      intro idx v hidx hget
      rcases Nat.lt_or_ge idx left with hcase | hcase
      · exact hlo idx v hcase hget
      · have := sorted_le_of_getElem? hs (show idx ≤ left + (right - left) / 2 by omega)
          hget hmidmem
        exact lt_of_le_of_lt this hv1
    · by_cases hv2 : x < as.getD (left + (right - left) / 2) x
      · rw [hstep, if_neg hv1, if_pos hv2]
        refine sbsGo_spec as x hs left (left + (right - left) / 2) (by omega) (by omega) hlo ?_
        intro idx v hidx hget
        have := sorted_le_of_getElem? hs hidx hmidmem hget
        exact lt_of_lt_of_le hv2 this
      · left
        refine ⟨left + (right - left) / 2, by rw [hstep, if_neg hv1, if_neg hv2], ?_⟩
        have hxeq : as.getD (left + (right - left) / 2) x = x :=
          le_antisymm (not_lt.mp hv2) (not_lt.mp hv1)
        rw [← hxeq]
        exact hmidmem
  · right
    have hdone : sbsGo as x left right = SearchResult.err left := by
      rw [sbsGo, dif_neg h]
    refine ⟨left, hdone, by omega, hlo, ?_⟩
    intro idx v hidx hget
    exact hhi idx v (by omega) hget
termination_by left right => right - left
decreasing_by all_goals omega

theorem sbs_top (as : List α) (x : α) (hs : as.Sorted (· ≤ ·)) :
    (∃ p, sliceBinarySearch as x = SearchResult.ok p ∧ as[p]? = some x) ∨
    (∃ p, sliceBinarySearch as x = SearchResult.err p ∧ p ≤ as.length ∧
      (∀ idx v, idx < p → as[idx]? = some v → v < x) ∧
      (∀ idx v, p ≤ idx → as[idx]? = some v → x < v)) :=
  sbsGo_spec as x hs 0 as.length (by omega) (by omega)
    (by intro idx v h _; omega)
    (by
      intro idx v hidx hget
      have : idx < as.length := by
        by_contra hc
        rw [List.getElem?_eq_none (by omega)] at hget
        cases hget
      omega)

/-- When `x` occurs in the sorted bucket, `binary_search` hits it. -/
theorem sliceBinarySearch_mem (as : List α) (x : α) (hs : as.Sorted (· ≤ ·)) (hx : x ∈ as) :
    ∃ p, sliceBinarySearch as x = SearchResult.ok p ∧ as[p]? = some x := by
  rcases sbs_top as x hs with hcase | hcase
  · exact hcase
  · obtain ⟨p, _, _, hbef, haft⟩ := hcase
    obtain ⟨n, hn⟩ := List.mem_iff_getElem?.mp hx
    rcases Nat.lt_or_ge n p with hc | hc
    · exact absurd (hbef n x hc hn) (lt_irrefl x)
    · exact absurd (haft n x hc hn) (lt_irrefl x)

/-- When `x` does not occur in the sorted bucket, `binary_search` misses at
the count of strictly smaller elements. -/
theorem sliceBinarySearch_not_mem (as : List α) (x : α) (hs : as.Sorted (· ≤ ·))
    (hx : x ∉ as) :
    sliceBinarySearch as x = SearchResult.err (as.countP (fun v => decide (v < x))) := by
  rcases sbs_top as x hs with hcase | hcase
  · obtain ⟨p, _, hget⟩ := hcase
    exact absurd (List.mem_iff_getElem?.mpr ⟨p, hget⟩) hx
  · obtain ⟨p, heq, hple, hbef, haft⟩ := hcase
    have hp : as.countP (fun v => decide (v < x)) = p := by
      refine countP_eq_of_split as x p hple hbef ?_
      intro idx v hidx hget
      exact not_lt.mpr (le_of_lt (haft idx v hidx hget))
    rw [heq, hp]

/-- The position used by `_lists_insert` (hit or miss) splits the bucket into
a prefix `≤ x` and a suffix `≥ x`. -/
theorem sbs_insert_pos (as : List α) (x : α) (hs : as.Sorted (· ≤ ·)) (pos : Nat)
    (hpos : pos = (match sliceBinarySearch as x with
      | SearchResult.ok p => p
      | SearchResult.err p => p)) :
    pos ≤ as.length ∧
    (∀ idx v, idx < pos → as[idx]? = some v → v ≤ x) ∧
    (∀ idx v, pos ≤ idx → as[idx]? = some v → x ≤ v) := by
  rcases sbs_top as x hs with ⟨p, heq, hget⟩ | ⟨p, heq, hple, hbef, haft⟩
  · rw [heq] at hpos
    have hpos2 : pos = p := hpos
    rw [hpos2]
    have hplen : p < as.length := by
      by_contra hc
      rw [List.getElem?_eq_none (by omega)] at hget
      cases hget
    refine ⟨by omega, ?_, ?_⟩
    · intro idx v hidx hv
      exact sorted_le_of_getElem? hs (by omega) hv hget
    · intro idx v hidx hv
      exact sorted_le_of_getElem? hs hidx hget hv
  · rw [heq] at hpos
    have hpos2 : pos = p := hpos
    rw [hpos2]
    refine ⟨hple, ?_, ?_⟩
    · intro idx v hidx hv
      exact le_of_lt (hbef idx v hidx hv)
    · intro idx v hidx hv
      exact le_of_lt (haft idx v hidx hv)

/-!
## Flatten decomposition helpers
-/

theorem getD_eq_getElem_of_lt (ls : List (List α)) (i : Nat) (hi : i < ls.length) :
    ls.getD i [] = ls[i] := by
  rw [List.getD_eq_getElem?_getD, List.getElem?_eq_getElem hi]
  rfl

theorem flatten_take_drop (ls : List (List α)) (j : Nat) :
    (ls.take j).flatten ++ (ls.drop j).flatten = ls.flatten := by
  rw [← List.flatten_append, List.take_append_drop]

theorem flatten_decomp (ls : List (List α)) (i : Nat) (hi : i < ls.length) :
    ls.flatten = (ls.take i).flatten ++ (ls.getD i [] ++ (ls.drop (i + 1)).flatten) := by
  rw [← flatten_take_drop ls i, List.drop_eq_getElem_cons hi, List.flatten_cons,
    getD_eq_getElem_of_lt ls i hi]

theorem flatten_set (ls : List (List α)) (i : Nat) (hi : i < ls.length) (b : List α) :
    (ls.set i b).flatten = (ls.take i).flatten ++ (b ++ (ls.drop (i + 1)).flatten) := by
  rw [List.set_eq_take_append_cons_drop, if_pos hi, List.flatten_append, List.flatten_cons]

theorem sorted_cross {u v : List α} (hs : (u ++ v).Sorted (· ≤ ·)) :
    ∀ e ∈ u, ∀ f ∈ v, e ≤ f := (List.pairwise_append.mp hs).2.2

theorem sorted_of_append_left {u v : List α} (hs : (u ++ v).Sorted (· ≤ ·)) :
    u.Sorted (· ≤ ·) := (List.pairwise_append.mp hs).1

theorem sorted_of_append_right {u v : List α} (hs : (u ++ v).Sorted (· ≤ ·)) :
    v.Sorted (· ≤ ·) := (List.pairwise_append.mp hs).2.1

theorem flatten_drop_head (ls : List (List α)) (j : Nat) (hj : j < ls.length) (v : α)
    (hv : (ls.getD j []).head? = some v) :
    ∃ t, (ls.drop j).flatten = v :: t := by
  rw [List.drop_eq_getElem_cons hj, List.flatten_cons, ← getD_eq_getElem_of_lt ls j hj]
  cases hgd : ls.getD j [] with
  | nil => rw [hgd] at hv; cases hv
  | cons a t0 =>
    rw [hgd] at hv
    have hav : a = v := by
      have : some a = some v := hv
      cases this
      rfl
    subst hav
    exact ⟨t0 ++ (ls.drop (j + 1)).flatten, rfl⟩

/-- Under global sortedness, the head of bucket `j` bounds everything from
bucket `j` on. -/
theorem head_le_flatten_drop (ls : List (List α)) (j : Nat) (hj : j < ls.length) (v : α)
    (hv : (ls.getD j []).head? = some v) (hs : ls.flatten.Sorted (· ≤ ·)) :
    ∀ e ∈ (ls.drop j).flatten, v ≤ e := by
  obtain ⟨t, ht⟩ := flatten_drop_head ls j hj v hv
  have hsd : (ls.drop j).flatten.Sorted (· ≤ ·) := by
    rw [← flatten_take_drop ls j] at hs
    exact sorted_of_append_right hs
  rw [ht] at hsd ⊢
  intro e he
  rcases List.mem_cons.mp he with rfl | he2
  · exact le_refl e
  · exact (List.pairwise_cons.mp hsd).1 e he2

/-- Under global sortedness, everything strictly before bucket `j` is bounded
by the head of bucket `j`. -/
theorem flatten_take_le_head (ls : List (List α)) (j : Nat) (hj : j < ls.length) (v : α)
    (hv : (ls.getD j []).head? = some v) (hs : ls.flatten.Sorted (· ≤ ·)) :
    ∀ e ∈ (ls.take j).flatten, e ≤ v := by
  have hcross : ∀ e ∈ (ls.take j).flatten, ∀ f ∈ (ls.drop j).flatten, e ≤ f := by
    rw [← flatten_take_drop ls j] at hs
    exact sorted_cross hs
  obtain ⟨t, ht⟩ := flatten_drop_head ls j hj v hv
  intro e he
  refine hcross e he v ?_
  rw [ht]
  exact List.mem_cons_self v t

/-!
## Contract of `_bisect_right_lists`
-/

theorem bisectGo_spec (ls : List (List α)) (x : α) :
    ∀ lo hi k, lo < hi →
      (∃ vlo, (ls.getD lo []).head? = some vlo ∧ vlo ≤ x) →
      (∃ vhi, (ls.getD hi []).head? = some vhi ∧ x < vhi) →
      bisectGo ls x lo hi = some k →
      lo ≤ k ∧ k < hi ∧
      (∃ vk, (ls.getD k []).head? = some vk ∧ vk ≤ x) ∧
      (∃ vk1, (ls.getD (k + 1) []).head? = some vk1 ∧ x < vk1) := by
  intro lo hi k hlt hhlo hhhi hres
  by_cases h : lo + 1 < hi
  · rw [bisectGo, dif_pos h] at hres
    cases hm : (ls.getD ((lo + hi) / 2) []).head? with
    | none => rw [hm] at hres; cases hres
    | some hmv =>
      rw [hm] at hres
      dsimp only at hres
      by_cases hle : hmv ≤ x
      · rw [if_pos hle] at hres
        obtain ⟨hk1, hk2, hk3, hk4⟩ :=
          bisectGo_spec ls x ((lo + hi) / 2) hi k (by omega) ⟨hmv, hm, hle⟩ hhhi hres
        exact ⟨by omega, hk2, hk3, hk4⟩
      · rw [if_neg hle] at hres
        obtain ⟨hk1, hk2, hk3, hk4⟩ :=
          bisectGo_spec ls x lo ((lo + hi) / 2) k (by omega) hhlo
            ⟨hmv, hm, not_le.mp hle⟩ hres
        exact ⟨hk1, by omega, hk3, hk4⟩
  · rw [bisectGo, dif_neg h] at hres
    have hk : k = lo := by
      have : some lo = some k := hres
      cases this
      rfl
    subst hk
    have hhi : k + 1 = hi := by omega
    rw [hhi]
    exact ⟨le_refl k, by omega, hhlo, hhhi⟩
termination_by lo hi _ => hi - lo
decreasing_by all_goals omega

theorem length_pos_of_head? (ls : List (List α)) (i : Nat) (v : α)
    (hv : (ls.getD i []).head? = some v) : i < ls.length := by
  by_contra hc
  rw [List.getD_eq_default _ _ (by omega)] at hv
  cases hv

/-- What `_bisect_right_lists` guarantees about its result: bucket `k`
exists, everything in earlier buckets is `≤ x`, everything in later buckets
is `> x`, and (except for the `k = 0` early return) the head of bucket `k`
is `≤ x`. -/
theorem bisect_spec (ls : List (List α)) (x : α) (hs : ls.flatten.Sorted (· ≤ ·)) (k : Nat)
    (hres : bisectRightLists ls x = some k) :
    k < ls.length ∧
    (∀ e ∈ (ls.take k).flatten, e ≤ x) ∧
    (∀ e ∈ (ls.drop (k + 1)).flatten, x < e) ∧
    (k = 0 ∨ ∃ vk, (ls.getD k []).head? = some vk ∧ vk ≤ x) := by
  rw [bisectRightLists] at hres
  cases h0m : (ls.getD 0 []).head? with
  | none => rw [h0m] at hres; cases hres
  | some h0 =>
    rw [h0m] at hres
    dsimp only at hres
    have hlen : 0 < ls.length := length_pos_of_head? ls 0 h0 h0m
    by_cases hx0 : x < h0
    · rw [if_pos hx0] at hres
      have hk : k = 0 := by
        have : some 0 = some k := hres
        cases this
        rfl
      subst hk
      refine ⟨hlen, by simp, ?_, Or.inl rfl⟩
      intro e he
      have hall := head_le_flatten_drop ls 0 hlen h0 h0m hs
      rw [List.drop_zero] at hall
      have hmem : e ∈ ls.flatten := by
        rw [← flatten_take_drop ls 1]
        exact List.mem_append_right _ he
      exact lt_of_lt_of_le hx0 (hall e hmem)
    · rw [if_neg hx0] at hres
      cases hhm : (ls.getD (ls.length - 1) []).head? with
      | none => rw [hhm] at hres; cases hres
      | some hh =>
        rw [hhm] at hres
        dsimp only at hres
        by_cases hhx : hh ≤ x
        · rw [if_pos hhx] at hres
          have hk : k = ls.length - 1 := by
            have : some (ls.length - 1) = some k := hres
            cases this
            rfl
          subst hk
          refine ⟨by omega, ?_, ?_, Or.inr ⟨hh, hhm, hhx⟩⟩
          · intro e he
            exact le_trans (flatten_take_le_head ls (ls.length - 1) (by omega) hh hhm hs e he)
              hhx
          · intro e he
            have hdl : ls.length - 1 + 1 = ls.length := by omega
            rw [hdl, List.drop_length] at he
            simp at he
        · rw [if_neg hhx] at hres
          have hlen2 : 0 < ls.length - 1 := by
            rcases Nat.eq_or_lt_of_le (show 1 ≤ ls.length by omega) with h1 | h1
            · exfalso
              rw [show ls.length - 1 = 0 by omega, h0m] at hhm
              have : h0 = hh := by
                have : some h0 = some hh := hhm
                cases this
                rfl
              subst this
              exact hhx (not_lt.mp hx0)
            · omega
          obtain ⟨hk1, hk2, hk3, hk4⟩ := bisectGo_spec ls x 0 (ls.length - 1) k hlen2
            ⟨h0, h0m, not_lt.mp hx0⟩ ⟨hh, hhm, not_le.mp hhx⟩ hres
          obtain ⟨vk, hvk, hvkx⟩ := hk3
          obtain ⟨vk1, hvk1, hvk1x⟩ := hk4
          refine ⟨by omega, ?_, ?_, Or.inr ⟨vk, hvk, hvkx⟩⟩
          · intro e he
            exact le_trans (flatten_take_le_head ls k (by omega) vk hvk hs e he) hvkx
          · intro e he
            have hk1lt : k + 1 < ls.length := length_pos_of_head? ls (k + 1) vk1 hvk1
            exact lt_of_lt_of_le hvk1x (head_le_flatten_drop ls (k + 1) hk1lt vk1 hvk1 hs e he)

/-- `_bisect_right_lists` succeeds (does not panic) whenever the bucket list
is non-empty and every bucket is non-empty. -/
theorem bisectGo_some (ls : List (List α)) (x : α) (hne : ∀ l ∈ ls, l ≠ []) :
    ∀ lo hi, hi < ls.length → ∃ k, bisectGo ls x lo hi = some k := by
  intro lo hi hhi
  by_cases h : lo + 1 < hi
  · have hmid : (lo + hi) / 2 < ls.length := by omega
    have hmem : ls.getD ((lo + hi) / 2) [] ∈ ls := by
      rw [getD_eq_getElem_of_lt ls _ hmid]
      exact List.getElem_mem hmid
    cases hm : (ls.getD ((lo + hi) / 2) []).head? with
    | none =>
      exfalso
      exact hne _ hmem (List.head?_eq_none_iff.mp hm)
    | some hmv =>
      by_cases hle : hmv ≤ x
      · obtain ⟨k, hk⟩ := bisectGo_some ls x hne ((lo + hi) / 2) hi hhi
        exact ⟨k, by rw [bisectGo, dif_pos h, hm]; dsimp only; rw [if_pos hle]; exact hk⟩
      · obtain ⟨k, hk⟩ := bisectGo_some ls x hne lo ((lo + hi) / 2) hmid
        exact ⟨k, by rw [bisectGo, dif_pos h, hm]; dsimp only; rw [if_neg hle]; exact hk⟩
  · exact ⟨lo, by rw [bisectGo, dif_neg h]⟩
termination_by lo hi _ => hi - lo
decreasing_by all_goals omega

theorem bisect_some (ls : List (List α)) (x : α) (hlen : 0 < ls.length)
    (hne : ∀ l ∈ ls, l ≠ []) : ∃ k, bisectRightLists ls x = some k := by
  have hb0 : ls.getD 0 [] ∈ ls := by
    rw [getD_eq_getElem_of_lt ls 0 hlen]
    exact List.getElem_mem hlen
  cases h0m : (ls.getD 0 []).head? with
  | none => exact absurd (List.head?_eq_none_iff.mp h0m) (hne _ hb0)
  | some h0 =>
    by_cases hx0 : x < h0
    · exact ⟨0, by rw [bisectRightLists, h0m]; dsimp only; rw [if_pos hx0]⟩
    · have hblast : ls.getD (ls.length - 1) [] ∈ ls := by
        rw [getD_eq_getElem_of_lt ls _ (by omega)]
        exact List.getElem_mem (by omega)
      cases hhm : (ls.getD (ls.length - 1) []).head? with
      | none => exact absurd (List.head?_eq_none_iff.mp hhm) (hne _ hblast)
      | some hh =>
        by_cases hhx : hh ≤ x
        · exact ⟨ls.length - 1, by
            rw [bisectRightLists, h0m]
            dsimp only
            rw [if_neg hx0, hhm]
            dsimp only
            rw [if_pos hhx]⟩
        · obtain ⟨k, hk⟩ := bisectGo_some ls x hne 0 (ls.length - 1) (by omega)
          exact ⟨k, by
            rw [bisectRightLists, h0m]
            dsimp only
            rw [if_neg hx0, hhm]
            dsimp only
            rw [if_neg hhx]
            exact hk⟩

/-!
## Sorted insertion helpers
-/

theorem insertIdx_eq_take_cons_drop (p : Nat) (x : α) (l : List α) (hp : p ≤ l.length) :
    l.insertIdx p x = l.take p ++ x :: l.drop p := by
  induction l generalizing p with
  | nil =>
    have hp0 : p = 0 := by simpa using hp
    subst hp0
    rfl
  | cons a t ih =>
    cases p with
    | zero => rfl
    | succ p2 =>
      rw [List.insertIdx_succ_cons, ih p2 (by simpa using hp)]
      rfl

theorem sorted_insert_middle (u v : List α) (x : α) (hs : (u ++ v).Sorted (· ≤ ·))
    (hu : ∀ e ∈ u, e ≤ x) (hv : ∀ e ∈ v, x ≤ e) : (u ++ x :: v).Sorted (· ≤ ·) := by
  rw [List.Sorted, List.pairwise_append]
  refine ⟨sorted_of_append_left hs, ?_, ?_⟩
  · rw [List.pairwise_cons]
    exact ⟨hv, sorted_of_append_right hs⟩
  · intro a ha b hb
    rcases List.mem_cons.mp hb with rfl | hb2
    · exact hu a ha
    · exact sorted_cross hs a ha b hb2

theorem bucket_sorted (ls : List (List α)) (hs : ls.flatten.Sorted (· ≤ ·)) (i : Nat)
    (hi : i < ls.length) : (ls.getD i []).Sorted (· ≤ ·) := by
  rw [flatten_decomp ls i hi] at hs
  exact sorted_of_append_left (sorted_of_append_right hs)

theorem getD_take (ls : List (List α)) (i p : Nat) (hp : p < i) :
    (ls.take i).getD p [] = ls.getD p [] := by
  rw [List.getD_eq_getElem?_getD, List.getD_eq_getElem?_getD, List.getElem?_take, if_pos hp]

theorem getD_drop (ls : List (List α)) (i p : Nat) :
    (ls.drop i).getD p [] = ls.getD (i + p) [] := by
  rw [List.getD_eq_getElem?_getD, List.getD_eq_getElem?_getD, List.getElem?_drop]

/-- The two-level list after `_expand(i)`: prefix, lower half, upper half,
suffix. -/
theorem expand_lists_shape (s : SortedList α) (i : Nat) (hi : i < s.lists.length) :
    (s.lists.set i ((s.lists.getD i []).take ((s.lists.getD i []).length / 2))).insertIdx
        (i + 1) ((s.lists.getD i []).drop ((s.lists.getD i []).length / 2)) =
      s.lists.take i ++
        (s.lists.getD i []).take ((s.lists.getD i []).length / 2) ::
        (s.lists.getD i []).drop ((s.lists.getD i []).length / 2) ::
        s.lists.drop (i + 1) := by
  have hset : s.lists.set i ((s.lists.getD i []).take ((s.lists.getD i []).length / 2)) =
      s.lists.take i ++
        (s.lists.getD i []).take ((s.lists.getD i []).length / 2) :: s.lists.drop (i + 1) := by
    rw [List.set_eq_take_append_cons_drop, if_pos hi]
  rw [hset]
  have hlen : (s.lists.take i).length = i := by
    rw [List.length_take]
    omega
  have happ : s.lists.take i ++
      (s.lists.getD i []).take ((s.lists.getD i []).length / 2) :: s.lists.drop (i + 1) =
      (s.lists.take i ++ [(s.lists.getD i []).take ((s.lists.getD i []).length / 2)]) ++
        s.lists.drop (i + 1) := by
    simp
  rw [happ, insertIdx_eq_take_cons_drop _ _ _ (by simp [hlen])]
  have hlen2 : (s.lists.take i ++
      [(s.lists.getD i []).take ((s.lists.getD i []).length / 2)]).length = i + 1 := by
    simp [hlen]
  rw [show i + 1 = (s.lists.take i ++
      [(s.lists.getD i []).take ((s.lists.getD i []).length / 2)]).length from hlen2.symm,
    List.take_left, List.drop_left]
  simp

/-- Correctness of `_expand(i)` when bucket `i` is at least at the upper
load factor. -/
theorem expand_spec (s : SortedList α) (i : Nat) (hi : i < s.lists.length)
    (hbig : s.upperLoadFactor ≤ (s.lists.getD i []).length) (hup : s.upperLoadFactor = 2048) :
    ∃ s2, expand s i = some s2 ∧
      s2.lists.flatten = s.lists.flatten ∧
      s2.len = s.len ∧
      s2.loadFactor = s.loadFactor ∧
      s2.upperLoadFactor = s.upperLoadFactor ∧
      s2.lowerLoadFactor = s.lowerLoadFactor ∧
      (∃ m, 5 ≤ m ∧ s2.indexTreeOffset = 2 ^ m) ∧
      s2.lists.length ≤ s2.indexTreeOffset ∧
      TreeGood s2.indexTree (bucketSizes s2.lists) s2.indexTreeOffset ∧
      ((∀ p, p + 1 < s.lists.length → s.lists.getD p [] ≠ []) →
        ∀ p, p + 1 < s2.lists.length → s2.lists.getD p [] ≠ []) ∧
      ((∀ l ∈ s.lists, l ≠ []) → ∀ l ∈ s2.lists, l ≠ []) := by
  have hne : ¬ (s.lists.getD i []).length < s.upperLoadFactor := by omega
  have hstep : expand s i = some (rebuildIndexTree { s with
      lists := (s.lists.set i ((s.lists.getD i []).take ((s.lists.getD i []).length / 2))).insertIdx
        (i + 1) ((s.lists.getD i []).drop ((s.lists.getD i []).length / 2)) }) := by
    rw [expand, if_neg hne]
  refine ⟨_, hstep, ?_, rfl, rfl, rfl, rfl, rebuild_offset_pow _, rebuild_offset_ge _,
    rebuild_TreeGood _, ?_, ?_⟩
  · rw [rebuild_lists]
    show (_ : List (List α)).flatten = _
    rw [expand_lists_shape s i hi]
    rw [← flatten_take_drop s.lists i, List.drop_eq_getElem_cons hi,
      ← getD_eq_getElem_of_lt s.lists i hi]
    simp only [List.flatten_append, List.flatten_cons, List.append_assoc]
    congr 1
    rw [← List.append_assoc, List.take_append_drop]
  · intro hprev p hp
    rw [rebuild_lists] at hp ⊢
    rw [expand_lists_shape s i hi] at hp ⊢
    have hlA : (s.lists.take i).length = i := by rw [List.length_take]; omega
    have hlen2 : (s.lists.take i ++
        (s.lists.getD i []).take ((s.lists.getD i []).length / 2) ::
        (s.lists.getD i []).drop ((s.lists.getD i []).length / 2) ::
        s.lists.drop (i + 1)).length = s.lists.length + 1 := by
      simp [hlA]
      omega
    rw [hlen2] at hp
    rcases Nat.lt_or_ge p i with hc | hc
    · rw [List.getD_append _ _ _ _ (by omega), getD_take _ _ _ hc]
      exact hprev p (by omega)
    · rw [List.getD_append_right _ _ _ _ (by omega), hlA]
      rcases Nat.eq_or_lt_of_le hc with rfl | hc2
      · rw [Nat.sub_self]
        simp only [List.getD_cons_zero]
        intro hcon
        have hzero := List.length_eq_zero.mpr hcon
        rw [List.length_take] at hzero
        omega
      · rcases Nat.eq_or_lt_of_le (show i + 1 ≤ p by omega) with heq | hc3
        · rw [show p - i = 1 by omega]
          simp only [List.getD_cons_succ, List.getD_cons_zero]
          intro hcon
          have hzero := List.length_eq_zero.mpr hcon
          rw [List.length_drop] at hzero
          omega
        · rw [show p - i = (p - i - 2) + 1 + 1 by omega]
          simp only [List.getD_cons_succ]
          rw [getD_drop]
          exact hprev (i + 1 + (p - i - 2)) (by omega)
  · intro hall l hl
    rw [rebuild_lists] at hl
    rw [expand_lists_shape s i hi] at hl
    have hblen : 2048 ≤ (s.lists.getD i []).length := by omega
    rcases List.mem_append.mp hl with hA | hRest
    · exact hall l (List.take_subset _ _ hA)
    · rcases List.mem_cons.mp hRest with rfl | hRest2
      · intro hcon
        have hzero := List.length_eq_zero.mpr hcon
        rw [List.length_take] at hzero
        omega
      · rcases List.mem_cons.mp hRest2 with rfl | hB
        · intro hcon
          have hzero := List.length_eq_zero.mpr hcon
          rw [List.length_drop] at hzero
          omega
        · exact hall l (List.drop_subset _ _ hB)

theorem getD_set_self (ls : List (List α)) (i : Nat) (hi : i < ls.length) (b : List α) :
    (ls.set i b).getD i [] = b := by
  rw [List.getD_eq_getElem?_getD, List.getElem?_set_self hi]
  rfl

theorem getD_set_ne (ls : List (List α)) {i j : Nat} (hij : i ≠ j) (b : List α) :
    (ls.set i b).getD j [] = ls.getD j [] := by
  rw [List.getD_eq_getElem?_getD, List.getElem?_set_ne hij, ← List.getD_eq_getElem?_getD]

theorem all_nonempty_of_getD (ls : List (List α)) (h : ∀ p, p < ls.length → ls.getD p [] ≠ []) :
    ∀ l ∈ ls, l ≠ [] := by
  intro l hl
  obtain ⟨n, hn⟩ := List.mem_iff_getElem?.mp hl
  have hlt : n < ls.length := by
    by_contra hc
    rw [List.getElem?_eq_none (by omega)] at hn
    cases hn
  have hne := h n hlt
  rw [List.getD_eq_getElem?_getD, hn] at hne
  exact hne

theorem getD_mem (ls : List (List α)) (p : Nat) (hp : p < ls.length) : ls.getD p [] ∈ ls := by
  rw [getD_eq_getElem_of_lt ls p hp]
  exact List.getElem_mem hp

/-- Correctness of `_lists_insert(i, element)` when `i` is a valid insertion
bucket: everything before bucket `i` is `≤ x` and everything after is `≥ x`. -/
theorem listsInsert_spec (s : SortedList α) (i : Nat) (x : α)
    (hInv : Inv s) (hi : i < s.lists.length)
    (hbefore : ∀ e ∈ (s.lists.take i).flatten, e ≤ x)
    (hafter : ∀ e ∈ (s.lists.drop (i + 1)).flatten, x ≤ e) :
    ∃ s2, listsInsert s i x = some s2 ∧ Inv s2 ∧
      s2.lists.flatten.Perm (x :: s.lists.flatten) ∧
      s2.len = s.len + 1 ∧
      ((∀ p, p < s.lists.length → p ≠ i → s.lists.getD p [] ≠ []) →
        ∀ l ∈ s2.lists, l ≠ []) := by
  obtain ⟨hpow, hloff, hTG, hlensum, hsorted, hnonlast, hload, hup, hlow⟩ := hInv
  have hbsort := bucket_sorted s.lists hsorted i hi
  obtain ⟨hple, hposB, hposA⟩ := sbs_insert_pos (s.lists.getD i []) x hbsort
    (match sliceBinarySearch (s.lists.getD i []) x with
      | SearchResult.ok p => p
      | SearchResult.err p => p) rfl
  set pos := (match sliceBinarySearch (s.lists.getD i []) x with
      | SearchResult.ok p => p
      | SearchResult.err p => p) with hposdef
  have hstep : listsInsert s i x =
      (if s.upperLoadFactor < ((s.lists.getD i []).insertIdx pos x).length then
        expand
          { s with
              lists := s.lists.set i ((s.lists.getD i []).insertIdx pos x),
              len := s.len + 1 } i
      else some
          { s with
              lists := s.lists.set i ((s.lists.getD i []).insertIdx pos x),
              len := s.len + 1,
              indexTree := indexTreeAdd s.indexTree s.indexTreeOffset i 1 }) := by
    rw [listsInsert, if_pos hi]
  have hb1len : ((s.lists.getD i []).insertIdx pos x).length = (s.lists.getD i []).length + 1 :=
    List.length_insertIdx pos _ hple
  have hflat1 : (s.lists.set i ((s.lists.getD i []).insertIdx pos x)).flatten =
      ((s.lists.take i).flatten ++ (s.lists.getD i []).take pos) ++
        x :: ((s.lists.getD i []).drop pos ++ (s.lists.drop (i + 1)).flatten) := by
    rw [flatten_set _ _ hi, insertIdx_eq_take_cons_drop pos x _ hple]
    simp only [List.append_assoc, List.cons_append]
  have huv : ((s.lists.take i).flatten ++ (s.lists.getD i []).take pos) ++
      ((s.lists.getD i []).drop pos ++ (s.lists.drop (i + 1)).flatten) = s.lists.flatten := by
    rw [flatten_decomp s.lists i hi]
    simp only [List.append_assoc]
    congr 1
    rw [← List.append_assoc, List.take_append_drop]
  have hu : ∀ e ∈ (s.lists.take i).flatten ++ (s.lists.getD i []).take pos, e ≤ x := by
    intro e he
    rcases List.mem_append.mp he with h1 | h2
    · exact hbefore e h1
    · obtain ⟨n, hn, hget⟩ := mem_take_getElem? h2
      exact hposB n e hn hget
  have hv : ∀ e ∈ (s.lists.getD i []).drop pos ++ (s.lists.drop (i + 1)).flatten, x ≤ e := by
    intro e he
    rcases List.mem_append.mp he with h1 | h2
    · obtain ⟨n, hget⟩ := mem_drop_getElem? h1
      exact hposA (pos + n) e (by omega) hget
    · exact hafter e h2
  have hsorted1 : (s.lists.set i ((s.lists.getD i []).insertIdx pos x)).flatten.Sorted
      (· ≤ ·) := by
    rw [hflat1]
    refine sorted_insert_middle _ _ x ?_ hu hv
    rw [huv]
    exact hsorted
  have hperm1 : (s.lists.set i ((s.lists.getD i []).insertIdx pos x)).flatten.Perm
      (x :: s.lists.flatten) := by
    rw [hflat1, ← huv]
    exact List.perm_middle
  have hlen1 : (s.lists.set i ((s.lists.getD i []).insertIdx pos x)).flatten.length =
      s.lists.flatten.length + 1 := by
    rw [hperm1.length_eq]
    rfl
  have hne1 : ∀ p, p < s.lists.length → p ≠ i →
      (s.lists.set i ((s.lists.getD i []).insertIdx pos x)).getD p [] = s.lists.getD p [] :=
    fun p _ hp => getD_set_ne s.lists (fun he => hp he.symm) _
  have hbucket1 : (s.lists.set i ((s.lists.getD i []).insertIdx pos x)).getD i [] =
      (s.lists.getD i []).insertIdx pos x := getD_set_self s.lists i hi _
  by_cases hx : s.upperLoadFactor < ((s.lists.getD i []).insertIdx pos x).length
  · -- split path
    rw [hstep, if_pos hx]
    obtain ⟨s2, heq, hfl, hln, hld1, hld2, hld3, hopow, hooff, hoTG, hone, hstrong⟩ :=
      expand_spec
        { s with
            lists := s.lists.set i ((s.lists.getD i []).insertIdx pos x),
            len := s.len + 1 } i
        (by simpa using hi)
        (by
          show s.upperLoadFactor ≤
            ((s.lists.set i ((s.lists.getD i []).insertIdx pos x)).getD i []).length
          rw [hbucket1]
          omega)
        hup
    have hfl2 : s2.lists.flatten =
        (s.lists.set i ((s.lists.getD i []).insertIdx pos x)).flatten := hfl
    have hln2 : s2.len = s.len + 1 := hln
    have hfls : s.lists.flatten.length = s.len := by
      rw [flatten_length_eq, ← hlensum]
    have hnil : ∀ p, p + 1 <
        (s.lists.set i ((s.lists.getD i []).insertIdx pos x) : List (List α)).length →
        (s.lists.set i ((s.lists.getD i []).insertIdx pos x)).getD p [] ≠ [] := by
      intro p hp
      rw [List.length_set] at hp
      rcases eq_or_ne p i with rfl | hpi
      · rw [hbucket1]
        intro hcon
        have hzero := List.length_eq_zero.mpr hcon
        omega
      · rw [hne1 p (by omega) hpi]
        exact hnonlast p hp
    refine ⟨s2, heq, ?_, ?_, hln2, ?_⟩
    · refine ⟨hopow, hooff, hoTG, ?_, ?_, ?_, ?_, ?_, ?_⟩
      · rw [← flatten_length_eq, hfl2, hlen1, hfls, hln2]
      · rw [hfl2]
        exact hsorted1
      · exact hone hnil
      · rw [hld1]
        exact hload
      · rw [hld2]
        exact hup
      · rw [hld3]
        exact hlow
    · rw [hfl2]
      exact hperm1
    · intro hstrongIn
      refine hstrong ?_
      refine all_nonempty_of_getD _ ?_
      intro p hp
      rw [List.length_set] at hp
      rcases eq_or_ne p i with rfl | hpi
      · rw [hbucket1]
        intro hcon
        have hzero := List.length_eq_zero.mpr hcon
        omega
      · rw [hne1 p hp hpi]
        exact hstrongIn p hp hpi
  · -- point-update path
    rw [hstep, if_neg hx]
    obtain ⟨m, hm5, hmeq⟩ := hpow
    have hsz2 : bucketSizes (s.lists.set i ((s.lists.getD i []).insertIdx pos x)) =
        (bucketSizes s.lists).set i ((s.lists.getD i []).insertIdx pos x).length := by
      rw [bucketSizes, bucketSizes, List.map_set]
    have hszlen : (bucketSizes s.lists).length = s.lists.length := by
      rw [bucketSizes, List.length_map]
    have hTG2 : TreeGood (indexTreeAdd s.indexTree s.indexTreeOffset i 1)
        (bucketSizes (s.lists.set i ((s.lists.getD i []).insertIdx pos x)))
        s.indexTreeOffset := by
      rw [hmeq, hsz2]
      refine indexTreeAdd_TreeGood s.indexTree (bucketSizes s.lists) _ m i 1
        (hmeq ▸ hTG) (by omega) ?_ ?_
      · intro j hj
        exact (tget_set_ne (fun he => hj he.symm) (bucketSizes s.lists) _).symm
      · rw [if_pos (by decide)]
        show tget ((bucketSizes s.lists).set i ((s.lists.getD i []).insertIdx pos x).length) i =
          tget (bucketSizes s.lists) i + (1 : Int).toNat
        rw [tget_set_self (by rw [hszlen]; omega)]
        rw [hb1len]
        have hbl : tget (bucketSizes s.lists) i = (s.lists.getD i []).length :=
          sizeD_eq s.lists i
        rw [hbl]
        rfl
    refine ⟨_, rfl, ?_, hperm1, rfl, ?_⟩
    · refine ⟨⟨m, hm5, hmeq⟩, ?_, hTG2, ?_, hsorted1, ?_, hload, hup, hlow⟩
      · show (s.lists.set i _ : List (List α)).length ≤ s.indexTreeOffset
        rw [List.length_set]
        exact hloff
      · show s.len + 1 = (bucketSizes (s.lists.set i _)).sum
        have hfls : s.lists.flatten.length = s.len := by
          rw [flatten_length_eq, ← hlensum]
        rw [← flatten_length_eq, hlen1, hfls]
      · intro p hp
        have hp2 : p + 1 < s.lists.length := by
          have hp3 : p + 1 <
              (s.lists.set i ((s.lists.getD i []).insertIdx pos x)).length := hp
          rw [List.length_set] at hp3
          exact hp3
        show (s.lists.set i ((s.lists.getD i []).insertIdx pos x)).getD p [] ≠ []
        rcases eq_or_ne p i with rfl | hpi
        · rw [hbucket1]
          intro hcon
          have hzero := List.length_eq_zero.mpr hcon
          omega
        · rw [hne1 p (by omega) hpi]
          exact hnonlast p hp2
    · intro hstrongIn
      refine all_nonempty_of_getD _ ?_
      intro p hp
      have hp2 : p < s.lists.length := by
        have hp3 : p < (s.lists.set i ((s.lists.getD i []).insertIdx pos x)).length := hp
        rw [List.length_set] at hp3
        exact hp3
      show (s.lists.set i ((s.lists.getD i []).insertIdx pos x)).getD p [] ≠ []
      rcases eq_or_ne p i with rfl | hpi
      · rw [hbucket1]
        intro hcon
        have hzero := List.length_eq_zero.mpr hcon
        omega
      · rw [hne1 p hp2 hpi]
        exact hstrongIn p hp2 hpi

theorem TreeGood_congr {t sz sz2 : List Nat} {off : Nat} (h : TreeGood t sz off)
    (hagree : ∀ p, sz.getD p 0 = sz2.getD p 0) : TreeGood t sz2 off := by
  refine ⟨h.1, ?_⟩
  intro node h1 h2
  rw [h.2 node h1 h2]
  exact treeVal_congr hagree off node

/-- All bucket sizes are zero in a state with `len = 0` (under the
invariant). -/
theorem bucketSizes_zero_of_len_zero (s : SortedList α) (hlensum : s.len = (bucketSizes s.lists).sum)
    (hlen : s.len = 0) : ∀ p, (bucketSizes s.lists).getD p 0 = 0 := by
  intro p
  have hsum0 : (bucketSizes s.lists).sum = 0 := by omega
  rcases Nat.lt_or_ge p (bucketSizes s.lists).length with hc | hc
  · rw [List.getD_eq_getElem?_getD, List.getElem?_eq_getElem hc]
    exact (List.sum_eq_zero_iff.mp hsum0) _ (List.getElem_mem hc)
  · rw [List.getD_eq_default _ _ hc]

/-- Correctness of `insert(element)` on any state satisfying the invariant. -/
theorem insert_spec (s : SortedList α) (hInv : Inv s) (x : α) (s2 : SortedList α)
    (hres : insertSL s x = some s2) :
    Inv s2 ∧ s2.lists.flatten.Perm (x :: s.lists.flatten) ∧ s2.len = s.len + 1 ∧
    ((∀ l ∈ s.lists, l ≠ []) → ∀ l ∈ s2.lists, l ≠ []) := by
  obtain ⟨hpow, hloff, hTG, hlensum, hsorted, hnonlast, hload, hup, hlow⟩ := hInv
  by_cases hlen : s.len = 0
  · have hzero := bucketSizes_zero_of_len_zero s hlensum hlen
    have hall0 : ∀ p, (bucketSizes s.lists).getD p 0 =
        (bucketSizes ([[]] : List (List α))).getD p 0 := by
      intro p
      rw [hzero p]
      match p with
      | 0 => rfl
      | Nat.succ q => rfl
    have hoff32 : 32 ≤ s.indexTreeOffset := by
      obtain ⟨m, hm5, hmeq⟩ := hpow
      calc (32:Nat) = 2 ^ 5 := by norm_num
      _ ≤ 2 ^ m := Nat.pow_le_pow_right (by omega) hm5
      _ = s.indexTreeOffset := hmeq.symm
    have hInv1 : Inv { s with lists := ([[]] : List (List α)) } := by
      refine ⟨hpow, ?_, TreeGood_congr hTG hall0, ?_, ?_, ?_, hload, hup, hlow⟩
      · show ([[]] : List (List α)).length ≤ s.indexTreeOffset
        simp only [List.length_singleton]
        omega
      · exact hlen
      · show ([[]] : List (List α)).flatten.Sorted (· ≤ ·)
        simp
      · intro p hp
        exfalso
        have hp2 : p + 1 < 1 := hp
        omega
    obtain ⟨s2x, heq, hInv2, hperm, hlen2, hstrong⟩ :=
      listsInsert_spec { s with lists := ([[]] : List (List α)) } 0 x hInv1 (by simp)
        (by intro e he; simp at he) (by intro e he; simp at he)
    rw [insertSL, if_pos hlen] at hres
    rw [heq] at hres
    have hs2 : s2x = s2 := Option.some.inj hres
    subst hs2
    have hfse : s.lists.flatten = [] := by
      have hzl : s.lists.flatten.length = 0 := by
        rw [flatten_length_eq]
        omega
      exact List.eq_nil_of_length_eq_zero hzl
    refine ⟨hInv2, ?_, hlen2, ?_⟩
    · rw [hfse]
      exact hperm
    · intro _
      refine hstrong ?_
      intro p hp hne
      exfalso
      have hp2 : p < 1 := hp
      omega
  · rw [insertSL, if_neg hlen] at hres
    cases hbis : bisectRightLists s.lists x with
    | none =>
      rw [hbis] at hres
      have hres2 : (none : Option (SortedList α)) = some s2 := hres
      cases hres2
    | some k =>
      rw [hbis] at hres
      have hres2 : listsInsert s k x = some s2 := hres
      obtain ⟨hk, hbef, haft, _⟩ := bisect_spec s.lists x hsorted k hbis
      obtain ⟨s2x, heq, hInv2, hperm, hlen2, hstrong⟩ :=
        listsInsert_spec s k x ⟨hpow, hloff, hTG, hlensum, hsorted, hnonlast, hload, hup, hlow⟩
          hk hbef (fun e he => le_of_lt (haft e he))
      rw [heq] at hres2
      have hs2 : s2x = s2 := Option.some.inj hres2
      subst hs2
      refine ⟨hInv2, hperm, hlen2, ?_⟩
      intro hallne
      exact hstrong (fun p hp _ => hallne _ (getD_mem s.lists p hp))

/-!
## Collapse (`_collapse`) correctness
-/

theorem decomp2 (ls : List (List α)) (i : Nat) (h : i + 1 < ls.length) :
    ls = ls.take i ++ ls.getD i [] :: ls.getD (i + 1) [] :: ls.drop (i + 2) := by
  conv_lhs => rw [← List.take_append_drop i ls]
  rw [List.drop_eq_getElem_cons (show i < ls.length by omega),
    List.drop_eq_getElem_cons (show i + 1 < ls.length by omega),
    ← getD_eq_getElem_of_lt ls i (by omega), ← getD_eq_getElem_of_lt ls (i + 1) (by omega)]

/-- The bucket-list surgery shared by the two `_collapse` branches: erase the
bucket right of position `J` and append its contents onto bucket `J`. -/
theorem collapse_merge_shape (A B : List (List α)) (b c : List α) (J : Nat)
    (hJ : A.length = J) :
    ((A ++ b :: c :: B).eraseIdx (J + 1)).set J
      ((((A ++ b :: c :: B).eraseIdx (J + 1)).getD J []) ++ c) =
    A ++ (b ++ c) :: B := by
  subst hJ
  have he : (A ++ b :: c :: B).eraseIdx (A.length + 1) = A ++ b :: B := by
    rw [List.eraseIdx_append_of_length_le (by omega)]
    congr 1
    rw [show A.length + 1 - A.length = 1 by omega]
    rfl
  rw [he]
  have hg : (A ++ b :: B).getD A.length [] = b := by
    rw [List.getD_append_right _ _ _ _ (le_refl _), Nat.sub_self]
    rfl
  rw [hg, List.set_append, if_neg (by omega), Nat.sub_self]
  rfl

/-- The merged bucket list produced by a `_collapse` branch, in decomposed
form. -/
theorem collapse_merge (s : SortedList α) (J : Nat) (hJ : J + 1 < s.lists.length) :
    (s.lists.eraseIdx (J + 1)).set J
      ((s.lists.eraseIdx (J + 1)).getD J [] ++ s.lists.getD (J + 1) []) =
    s.lists.take J ++ (s.lists.getD J [] ++ s.lists.getD (J + 1) []) ::
      s.lists.drop (J + 2) := by
  have hlA : (s.lists.take J).length = J := by
    rw [List.length_take]
    omega
  have hgJ1 : (s.lists.take J ++ s.lists.getD J [] :: s.lists.getD (J + 1) [] ::
      s.lists.drop (J + 2)).getD (J + 1) [] = s.lists.getD (J + 1) [] := by
    rw [List.getD_append_right _ _ _ _ (by omega),
      show J + 1 - (s.lists.take J).length = 1 from by omega]
    rfl
  conv_lhs => rw [decomp2 s.lists J hJ]
  rw [hgJ1]
  exact collapse_merge_shape _ _ _ _ J hlA

/-- Properties of the state rebuilt after a `_collapse` merge at `J`. -/
theorem collapse_core (s : SortedList α) (J : Nat) (hJ : J + 1 < s.lists.length)
    (s2 : SortedList α)
    (hs2 : s2 = rebuildIndexTree { s with lists := (s.lists.eraseIdx (J + 1)).set J ((s.lists.eraseIdx (J + 1)).getD J [] ++ s.lists.getD (J + 1) []) }) :
    s2.lists.flatten = s.lists.flatten ∧
    s2.lists.length = s.lists.length - 1 ∧
    (∀ p, p < J → s2.lists.getD p [] = s.lists.getD p []) ∧
    s2.lists.getD J [] = s.lists.getD J [] ++ s.lists.getD (J + 1) [] ∧
    (∀ p, J < p → s2.lists.getD p [] = s.lists.getD (p + 1) []) ∧
    s2.len = s.len ∧
    s2.loadFactor = s.loadFactor ∧ s2.upperLoadFactor = s.upperLoadFactor ∧
    s2.lowerLoadFactor = s.lowerLoadFactor ∧
    (∃ m, 5 ≤ m ∧ s2.indexTreeOffset = 2 ^ m) ∧
    s2.lists.length ≤ s2.indexTreeOffset ∧
    TreeGood s2.indexTree (bucketSizes s2.lists) s2.indexTreeOffset := by
  subst hs2
  have hlists : (rebuildIndexTree { s with lists := (s.lists.eraseIdx (J + 1)).set J ((s.lists.eraseIdx (J + 1)).getD J [] ++ s.lists.getD (J + 1) []) }).lists = s.lists.take J ++ (s.lists.getD J [] ++ s.lists.getD (J + 1) []) :: s.lists.drop (J + 2) := by
    rw [rebuild_lists]
    exact collapse_merge s J hJ
  have hlA : (s.lists.take J).length = J := by
    rw [List.length_take]
    omega
  refine ⟨?_, ?_, ?_, ?_, ?_, rfl, rfl, rfl, rfl, rebuild_offset_pow _, rebuild_offset_ge _,
    rebuild_TreeGood _⟩
  · rw [hlists]
    conv_rhs => rw [decomp2 s.lists J hJ]
    simp only [List.flatten_append, List.flatten_cons, List.append_assoc]
  · rw [hlists]
    simp only [List.length_append, List.length_cons, hlA, List.length_drop]
    omega
  · intro p hp
    rw [hlists, List.getD_append _ _ _ _ (by omega), getD_take _ _ _ hp]
  · rw [hlists, List.getD_append_right _ _ _ _ (by omega), hlA, Nat.sub_self]
    rfl
  · intro p hp
    rw [hlists, List.getD_append_right _ _ _ _ (by omega), hlA,
      show p - J = (p - J - 1) + 1 from by omega]
    simp only [List.getD_cons_succ]
    rw [getD_drop]
    congr 1
    omega

/-- Correctness of `_collapse(i)` with at least two buckets. -/
theorem collapse_spec (s : SortedList α) (i : Nat) (hi : i < s.lists.length)
    (hlen2 : 2 ≤ s.lists.length) :
    ∃ s2, collapse s i = some s2 ∧
      s2.lists.flatten = s.lists.flatten ∧
      s2.len = s.len ∧
      s2.loadFactor = s.loadFactor ∧ s2.upperLoadFactor = s.upperLoadFactor ∧
      s2.lowerLoadFactor = s.lowerLoadFactor ∧
      (∃ m, 5 ≤ m ∧ s2.indexTreeOffset = 2 ^ m) ∧
      s2.lists.length ≤ s2.indexTreeOffset ∧
      TreeGood s2.indexTree (bucketSizes s2.lists) s2.indexTreeOffset ∧
      ((∀ p, p ≠ i → p + 1 < s.lists.length → s.lists.getD p [] ≠ []) →
        ∀ p, p + 1 < s2.lists.length → s2.lists.getD p [] ≠ []) := by
  have hmain : ∀ J, J + 1 < s.lists.length → (J = i ∨ J + 1 = i) →
      ∀ s2, s2 = rebuildIndexTree { s with lists := (s.lists.eraseIdx (J + 1)).set J ((s.lists.eraseIdx (J + 1)).getD J [] ++ s.lists.getD (J + 1) []) } →
      (s2.lists.flatten = s.lists.flatten ∧
        s2.len = s.len ∧
        s2.loadFactor = s.loadFactor ∧ s2.upperLoadFactor = s.upperLoadFactor ∧
        s2.lowerLoadFactor = s.lowerLoadFactor ∧
        (∃ m, 5 ≤ m ∧ s2.indexTreeOffset = 2 ^ m) ∧
        s2.lists.length ≤ s2.indexTreeOffset ∧
        TreeGood s2.indexTree (bucketSizes s2.lists) s2.indexTreeOffset ∧
        ((∀ p, p ≠ i → p + 1 < s.lists.length → s.lists.getD p [] ≠ []) →
          ∀ p, p + 1 < s2.lists.length → s2.lists.getD p [] ≠ [])) := by
    intro J hJ hJi s2 hs2
    obtain ⟨hflat, hlen, hlt, hJeq, hgt, hln, hl1, hl2, hl3, hop, hoff, hTG⟩ :=
      collapse_core s J hJ s2 hs2
    refine ⟨hflat, hln, hl1, hl2, hl3, hop, hoff, hTG, ?_⟩
    intro hprev p hp
    rw [hlen] at hp
    rcases Nat.lt_trichotomy p J with hc | hc | hc
    · rw [hlt p hc]
      rcases hJi with rfl | hJi2
      · exact hprev p (by omega) (by omega)
      · exact hprev p (by omega) (by omega)
    · subst hc
      rw [hJeq]
      intro hcon
      rcases List.append_eq_nil.mp hcon with ⟨hb, hc2⟩
      rcases hJi with rfl | hJi2
      · exact hprev (p + 1) (by omega) (by omega) hc2
      · exact hprev p (by omega) (by omega) hb
    · rw [hgt p hc]
      rcases hJi with rfl | hJi2
      · exact hprev (p + 1) (by omega) (by omega)
      · exact hprev (p + 1) (by omega) (by omega)
  by_cases hizero : 1 ≤ i
  · by_cases hilast : i + 1 < s.lists.length
    · by_cases hcmp : (s.lists.getD (i - 1) []).length < (s.lists.getD (i + 1) []).length
      · -- merge into the left neighbour
        obtain ⟨J, rfl⟩ : ∃ J, i = J + 1 := ⟨i - 1, by omega⟩
        have hstep : collapse s (J + 1) = some (rebuildIndexTree { s with lists := (s.lists.eraseIdx (J + 1)).set J ((s.lists.eraseIdx (J + 1)).getD J [] ++ s.lists.getD (J + 1) []) }) := by
          rw [collapse, if_neg (by omega)]
          dsimp only
          rw [if_pos (show 1 ≤ J + 1 by omega), if_pos hilast]
          rw [if_neg (by simp)]
          rw [if_pos (by simpa using hcmp)]
          simp only [Nat.add_sub_cancel]
        exact ⟨_, hstep, hmain J (by omega) (Or.inr rfl) _ rfl⟩
      · -- merge the right neighbour in
        have hstep : collapse s i = some (rebuildIndexTree { s with lists := (s.lists.eraseIdx (i + 1)).set i ((s.lists.eraseIdx (i + 1)).getD i [] ++ s.lists.getD (i + 1) []) }) := by
          rw [collapse, if_neg (by omega)]
          dsimp only
          rw [if_pos hizero, if_pos hilast]
          rw [if_neg (by simp)]
          rw [if_neg (by simpa using hcmp)]
        exact ⟨_, hstep, hmain i hilast (Or.inl rfl) _ rfl⟩
    · -- no right neighbour: merge into the left neighbour
      obtain ⟨J, rfl⟩ : ∃ J, i = J + 1 := ⟨i - 1, by omega⟩
      have hstep : collapse s (J + 1) = some (rebuildIndexTree { s with lists := (s.lists.eraseIdx (J + 1)).set J ((s.lists.eraseIdx (J + 1)).getD J [] ++ s.lists.getD (J + 1) []) }) := by
        rw [collapse, if_neg (by omega)]
        dsimp only
        rw [if_pos (show 1 ≤ J + 1 by omega), if_neg hilast]
        rw [if_neg (by simp)]
        simp
      exact ⟨_, hstep, hmain J (by omega) (Or.inr rfl) _ rfl⟩
  · -- i = 0: no left neighbour, merge the right neighbour in
    have hi0 : i = 0 := by omega
    subst hi0
    have hstep : collapse s 0 = some (rebuildIndexTree { s with lists := (s.lists.eraseIdx 1).set 0 ((s.lists.eraseIdx 1).getD 0 [] ++ s.lists.getD 1 []) }) := by
      rw [collapse, if_neg (by omega)]
      dsimp only
      rw [if_neg (show ¬ (1 : Nat) ≤ 0 by omega),
        if_pos (show 0 + 1 < s.lists.length by omega)]
      rw [if_neg (by simp)]
      simp
    exact ⟨_, hstep, hmain 0 (by omega) (Or.inl rfl) _ rfl⟩

/-!
## Remove (`_lists_remove` / `remove`) correctness
-/

theorem flatten_take_length (ls : List (List α)) (i : Nat) :
    (ls.take i).flatten.length = ∑ p ∈ Finset.range i, sizeD ls p := by
  rw [flatten_length_eq]
  have h1 : bucketSizes (ls.take i) = (bucketSizes ls).take i := by
    rw [bucketSizes, bucketSizes, List.map_take]
  rw [h1, ← sum_range_getD ((bucketSizes ls).take i) i (by simp)]
  refine Finset.sum_congr rfl ?_
  intro p hp
  rw [Finset.mem_range] at hp
  show ((bucketSizes ls).take i).getD p 0 = (bucketSizes ls).getD p 0
  rw [List.getD_eq_getElem?_getD, List.getD_eq_getElem?_getD, List.getElem?_take, if_pos hp]

theorem flatten_erase_at (ls : List (List α)) (i j : Nat) (hi : i < ls.length)
    (hj : j < (ls.getD i []).length) :
    (ls.set i ((ls.getD i []).eraseIdx j)).flatten =
      ls.flatten.eraseIdx ((ls.take i).flatten.length + j) := by
  rw [flatten_set ls i hi]
  conv_rhs => rw [flatten_decomp ls i hi]
  rw [List.eraseIdx_append_of_length_le (by omega),
    show (ls.take i).flatten.length + j - (ls.take i).flatten.length = j from by omega,
    List.eraseIdx_append_of_lt_length hj]

/-- Correctness of `_lists_remove(i, j)` on a valid position, under the
invariant: it removes exactly the element at flat rank
`(Σ_{p<i} |bucket p|) + j` and preserves the invariant. -/
theorem listsRemove_spec (s : SortedList α) (hInv : Inv s) (i j : Nat)
    (hi : i < s.lists.length) (hj : j < (s.lists.getD i []).length) :
    ∃ v s2, listsRemove s i j = some (v, s2) ∧ Inv s2 ∧
      s2.len = s.len - 1 ∧
      s.lists.flatten[(∑ p ∈ Finset.range i, sizeD s.lists p) + j]? = some v ∧
      s2.lists.flatten =
        s.lists.flatten.eraseIdx ((∑ p ∈ Finset.range i, sizeD s.lists p) + j) := by
  obtain ⟨hpow, hloff, hTG, hlensum, hsorted, hnonlast, hload, hup, hlow⟩ := hInv
  have hvj : (s.lists.getD i [])[j]? = some ((s.lists.getD i []).get ⟨j, hj⟩) :=
    List.getElem?_eq_getElem hj
  have hfK : s.lists.flatten[(∑ p ∈ Finset.range i, sizeD s.lists p) + j]? =
      some ((s.lists.getD i []).get ⟨j, hj⟩) := by
    rw [flatten_getElem? s.lists i j hi hj, hvj]
  have hKlt : (∑ p ∈ Finset.range i, sizeD s.lists p) + j < s.lists.flatten.length := by
    by_contra hc
    rw [List.getElem?_eq_none (Nat.le_of_not_lt hc)] at hfK
    cases hfK
  have herase : (s.lists.set i ((s.lists.getD i []).eraseIdx j)).flatten =
      s.lists.flatten.eraseIdx ((∑ p ∈ Finset.range i, sizeD s.lists p) + j) := by
    rw [← flatten_take_length s.lists i]
    exact flatten_erase_at s.lists i j hi hj
  have hflen : s.lists.flatten.length = s.len := by
    rw [flatten_length_eq, hlensum]
  have herlen : (s.lists.set i ((s.lists.getD i []).eraseIdx j)).flatten.length = s.len - 1 := by
    rw [herase, List.length_eraseIdx]
    simp only [hKlt, if_pos]
    omega
  have hsorted2 : (s.lists.set i ((s.lists.getD i []).eraseIdx j)).flatten.Sorted (· ≤ ·) := by
    rw [herase]
    exact List.Pairwise.sublist (List.eraseIdx_sublist _ _) hsorted
  have hguard : ¬(s.lists.length ≤ i ∨ (s.lists.getD i []).length ≤ j) := by
    push_neg
    exact ⟨hi, hj⟩
  have hred : listsRemove s i j =
      if 1 < (s.lists.set i ((s.lists.getD i []).eraseIdx j)).length ∧
          ((s.lists.getD i []).eraseIdx j).length < s.lowerLoadFactor then
        (collapse { s with lists := s.lists.set i ((s.lists.getD i []).eraseIdx j), len := s.len - 1 } i).bind
          (fun s2 => some ((s.lists.getD i []).get ⟨j, hj⟩, s2))
      else
        some ((s.lists.getD i []).get ⟨j, hj⟩,
          { s with lists := s.lists.set i ((s.lists.getD i []).eraseIdx j), indexTree := indexTreeAdd s.indexTree s.indexTreeOffset i (-1), len := s.len - 1 }) := by
    rw [listsRemove, if_neg hguard]
    dsimp only
    rw [hvj]
    rfl
  by_cases hcol : 1 < (s.lists.set i ((s.lists.getD i []).eraseIdx j)).length ∧
      ((s.lists.getD i []).eraseIdx j).length < s.lowerLoadFactor
  · -- the bucket fell below the lower load factor: collapse
    obtain ⟨s2c, hcoleq, hflat, hlenc, hc1, hc2, hc3, hpow2, hoff2, hTG2, hne2⟩ :=
      collapse_spec { s with lists := s.lists.set i ((s.lists.getD i []).eraseIdx j), len := s.len - 1 } i
        (by show i < (s.lists.set i _).length; rw [List.length_set]; exact hi)
        (by show 2 ≤ (s.lists.set i _).length; rw [List.length_set]; rw [List.length_set] at hcol; omega)
    have hflat2 : s2c.lists.flatten =
        s.lists.flatten.eraseIdx ((∑ p ∈ Finset.range i, sizeD s.lists p) + j) := by
      rw [hflat]
      exact herase
    refine ⟨_, s2c, ?_, ?_, ?_, hfK, hflat2⟩
    · rw [hred, if_pos hcol, hcoleq]
      rfl
    · refine ⟨hpow2, hoff2, hTG2, ?_, ?_, ?_, ?_, ?_, ?_⟩
      · rw [← flatten_length_eq, hflat2, List.length_eraseIdx]
        simp only [hKlt, if_pos]
        rw [hlenc]
        show s.len - 1 = s.lists.flatten.length - 1
        omega
      · rw [hflat2]
        exact List.Pairwise.sublist (List.eraseIdx_sublist _ _) hsorted
      · refine hne2 ?_
        intro p hp hlt
        show (s.lists.set i ((s.lists.getD i []).eraseIdx j)).getD p [] ≠ []
        rw [getD_set_ne _ (fun h => hp h.symm) _]
        refine hnonlast p ?_
        have hlt2 : p + 1 < (s.lists.set i _).length := hlt
        rw [List.length_set] at hlt2
        exact hlt2
      · rw [hc1]; exact hload
      · rw [hc2]; exact hup
      · rw [hc3]; exact hlow
    · rw [hlenc]
  · -- no collapse: point-update the index tree
    obtain ⟨m, hm5, hmo⟩ := hpow
    have hTG2 : TreeGood (indexTreeAdd s.indexTree (2 ^ m) i (-1))
        (bucketSizes (s.lists.set i ((s.lists.getD i []).eraseIdx j))) (2 ^ m) := by
      refine indexTreeAdd_TreeGood s.indexTree (bucketSizes s.lists) _ m i (-1)
        (by rw [← hmo]; exact hTG) (by omega) ?_ ?_
      · intro q hq
        show sizeD s.lists q = sizeD (s.lists.set i ((s.lists.getD i []).eraseIdx j)) q
        rw [sizeD_eq, sizeD_eq, getD_set_ne _ (fun h => hq h.symm) _]
      · show sizeD (s.lists.set i ((s.lists.getD i []).eraseIdx j)) i =
          if 0 ≤ (-1 : Int) then sizeD s.lists i + (-1 : Int).toNat
          else sizeD s.lists i - (-(-1 : Int)).toNat
        rw [if_neg (by norm_num), show ((-(-1 : Int))).toNat = 1 from rfl]
        rw [sizeD_eq, sizeD_eq, getD_set_self _ _ hi, List.length_eraseIdx, if_pos hj]
    refine ⟨(s.lists.getD i []).get ⟨j, hj⟩,
      { s with lists := s.lists.set i ((s.lists.getD i []).eraseIdx j), indexTree := indexTreeAdd s.indexTree s.indexTreeOffset i (-1), len := s.len - 1 },
      ?_, ?_, rfl, hfK, herase⟩
    · rw [hred, if_neg hcol]
    · refine ⟨⟨m, hm5, hmo⟩, ?_, ?_, ?_, hsorted2, ?_, hload, hup, hlow⟩
      · show (s.lists.set i _).length ≤ s.indexTreeOffset
        rw [List.length_set]
        exact hloff
      · show TreeGood (indexTreeAdd s.indexTree s.indexTreeOffset i (-1))
          (bucketSizes (s.lists.set i ((s.lists.getD i []).eraseIdx j))) s.indexTreeOffset
        rw [hmo]
        exact hTG2
      · show s.len - 1 = (bucketSizes (s.lists.set i ((s.lists.getD i []).eraseIdx j))).sum
        rw [← flatten_length_eq, herlen]
      · intro p hp
        have hp2 : p + 1 < (s.lists.set i ((s.lists.getD i []).eraseIdx j)).length := hp
        rw [List.length_set] at hp2
        have hbig : s.lowerLoadFactor ≤ ((s.lists.getD i []).eraseIdx j).length := by
          rcases Nat.lt_or_ge (((s.lists.getD i []).eraseIdx j)).length s.lowerLoadFactor with hc | hc
          · exact absurd ⟨by rw [List.length_set]; omega, hc⟩ hcol
          · exact hc
        show (s.lists.set i ((s.lists.getD i []).eraseIdx j)).getD p [] ≠ []
        by_cases hpi : p = i
        · subst hpi
          rw [getD_set_self _ _ hi]
          intro hnil
          rw [hnil, hlow] at hbig
          simp at hbig
        · rw [getD_set_ne _ (fun h => hpi h.symm) _]
          exact hnonlast p hp2

/-- Correctness of `remove(k)` for a valid rank `k < len`. -/
theorem remove_spec (s : SortedList α) (hInv : Inv s) (k : Nat) (hk : k < s.len) :
    ∃ v s2, removeSL s k = some (v, s2) ∧ Inv s2 ∧ s2.len = s.len - 1 ∧
      s.lists.flatten[k]? = some v ∧
      s2.lists.flatten = s.lists.flatten.eraseIdx k := by
  obtain ⟨i, j, heq, hi, hj, hsum⟩ := locateKth_spec s hInv k hk
  obtain ⟨v, s2, hrem, hInv2, hlen2, hvk, hflat2⟩ := listsRemove_spec s hInv i j hi hj
  rw [hsum] at hvk hflat2
  refine ⟨v, s2, ?_, hInv2, hlen2, hvk, hflat2⟩
  show (locateKthElement s k).bind (fun ij => listsRemove s ij.1 ij.2) = some (v, s2)
  rw [heq]
  exact hrem

/-!
## The constructors: `new` / `default`, `clear`, `From<IntoIter>`
-/

theorem treeVal_zero (sz : List Nat) (hz : ∀ p, sz.getD p 0 = 0) (offset node : Nat) :
    treeVal sz offset node = 0 := by
  by_cases hn : 1 ≤ node ∧ node < offset
  · rw [treeVal_node hn.1 hn.2, treeVal_zero sz hz offset (2 * node),
      treeVal_zero sz hz offset (2 * node + 1)]
  · rw [treeVal_leaf hn]
    exact hz _
termination_by offset - node

theorem TreeGood_empty : TreeGood (List.replicate 64 0) (bucketSizes ([] : List (List α))) 32 := by
  constructor
  · simp
  · intro node h1 h2
    rw [tget_replicate, treeVal_zero (bucketSizes ([] : List (List α))) (fun p => by simp [bucketSizes]) 32 node]

/-- The invariant holds of the freshly constructed empty list. -/
theorem Inv_default : Inv (defaultSL : SortedList α) := by
  refine ⟨⟨5, le_refl 5, rfl⟩, ?_, TreeGood_empty, rfl, ?_, ?_, rfl, rfl, rfl⟩
  · show ([] : List (List α)).length ≤ 32
    simp
  · show ([] : List (List α)).flatten.Sorted (· ≤ ·)
    simp
  · intro i hi
    have hi2 : i + 1 < ([] : List (List α)).length := hi
    simp at hi2

/-- The invariant holds after `clear()` (the load factors are carried over
from the previous state). -/
theorem Inv_clear (s : SortedList α) (hInv : Inv s) : Inv (clearSL s) := by
  obtain ⟨_, _, _, _, _, _, hload, hup, hlow⟩ := hInv
  refine ⟨⟨5, le_refl 5, rfl⟩, ?_, TreeGood_empty, rfl, ?_, ?_, hload, hup, hlow⟩
  · show ([] : List (List α)).length ≤ 32
    simp
  · show ([] : List (List α)).flatten.Sorted (· ≤ ·)
    simp
  · intro i hi
    have hi2 : i + 1 < ([] : List (List α)).length := hi
    simp at hi2

theorem mergeSort_sorted (l : List α) :
    List.Sorted (· ≤ ·) (l.mergeSort (fun a b => a ≤ b)) := List.sorted_mergeSort' l

theorem buildChunks_flatten (load : Nat) :
    ∀ (rest cur : List α), (buildChunks load cur rest).flatten = cur ++ rest := by
  intro rest
  induction rest with
  | nil =>
    intro cur
    simp [buildChunks]
  | cons x xs ih =>
    intro cur
    rw [buildChunks]
    try dsimp only
    by_cases h : (cur ++ [x]).length = load
    · rw [if_pos h, List.flatten_cons, ih []]
      simp
    · rw [if_neg h, ih (cur ++ [x])]
      simp

theorem buildChunks_ne_nil (load : Nat) :
    ∀ (rest cur : List α), buildChunks load cur rest ≠ [] := by
  intro rest
  induction rest with
  | nil =>
    intro cur
    simp [buildChunks]
  | cons x xs ih =>
    intro cur
    rw [buildChunks]
    try dsimp only
    by_cases h : (cur ++ [x]).length = load
    · rw [if_pos h]
      simp
    · rw [if_neg h]
      exact ih (cur ++ [x])

/-- Every chunk other than the final one has size exactly `load`. -/
theorem buildChunks_nonfinal (load : Nat) :
    ∀ (rest cur : List α), cur.length < load →
      ∀ i, i + 1 < (buildChunks load cur rest).length →
        ((buildChunks load cur rest).getD i []).length = load := by
  intro rest
  induction rest with
  | nil =>
    intro cur _ i hi
    rw [buildChunks] at hi
    simp at hi
  | cons x xs ih =>
    intro cur hcur i hi
    rw [buildChunks]
    try dsimp only
    rw [buildChunks] at hi
    try dsimp only at hi
    by_cases h : (cur ++ [x]).length = load
    · rw [if_pos h]
      rw [if_pos h] at hi
      match i with
      | 0 => exact h
      | Nat.succ p =>
        rw [List.getD_cons_succ]
        refine ih [] (by rw [← h]; simp) p ?_
        simp only [List.length_cons] at hi
        omega
    · rw [if_neg h]
      rw [if_neg h] at hi
      refine ih (cur ++ [x]) ?_ i hi
      simp only [List.length_append, List.length_cons, List.length_nil] at h ⊢
      omega

/-- When the input length is a positive multiple of `load` the chunking ends
with an empty final bucket: the exact-fit case. -/
theorem buildChunks_exact (load : Nat) :
    ∀ (rest cur : List α), cur.length < load → cur.length + rest.length = load →
      buildChunks load cur rest = [cur ++ rest, []] := by
  intro rest
  induction rest with
  | nil =>
    intro cur hcur hsum
    simp only [List.length_nil] at hsum
    omega
  | cons x xs ih =>
    intro cur hcur hsum
    rw [buildChunks]
    try dsimp only
    by_cases h : (cur ++ [x]).length = load
    · rw [if_pos h]
      have hxs : xs = [] := by
        simp only [List.length_append, List.length_cons, List.length_nil] at h hsum
        have : xs.length = 0 := by omega
        exact List.eq_nil_of_length_eq_zero this
      subst hxs
      rw [buildChunks]
    · rw [if_neg h]
      rw [ih (cur ++ [x]) (by simp only [List.length_append, List.length_cons, List.length_nil] at h ⊢; simp only [List.length_cons] at hsum; omega) (by simp only [List.length_append, List.length_cons, List.length_nil]; simp only [List.length_cons] at hsum; omega)]
      simp

/-- The invariant holds of every batch-constructed list. -/
theorem Inv_fromList (l : List α) : Inv (fromListSL l) := by
  have hflat : (fromListSL l).lists.flatten = l.mergeSort (fun a b => a ≤ b) := by
    rw [fromListSL, rebuild_lists]
    show (buildChunks 1024 [] (l.mergeSort (fun a b => a ≤ b))).flatten = _
    rw [buildChunks_flatten]
    rfl
  refine ⟨rebuild_offset_pow _, rebuild_offset_ge _, ?_, ?_, ?_, ?_, rfl, rfl, rfl⟩
  · have h := rebuild_TreeGood { (defaultSL : SortedList α) with lists := buildChunks 1024 [] (l.mergeSort (fun a b => a ≤ b)), len := l.length }
    exact h
  · show l.length = (bucketSizes (fromListSL l).lists).sum
    rw [← flatten_length_eq, hflat, (List.mergeSort_perm l _).length_eq]
  · rw [hflat]
    exact mergeSort_sorted l
  · intro i hi
    have hi2 : i + 1 < (buildChunks 1024 [] (l.mergeSort (fun a b => a ≤ b))).length := hi
    have h := buildChunks_nonfinal 1024 (l.mergeSort (fun a b => a ≤ b)) [] (by simp) i hi2
    show (buildChunks 1024 [] (l.mergeSort (fun a b => a ≤ b))).getD i [] ≠ []
    intro hnil
    rw [hnil] at h
    simp at h

/-- Every state reachable through the public API satisfies the
data-structure invariant. -/
theorem reachable_inv {s : SortedList α} (h : Reachable s) : Inv s := by
  induction h with
  | new => exact Inv_default
  | ofList l => exact Inv_fromList l
  | insert hr heq ih => exact (insert_spec _ ih _ _ heq).1
  | remove hr heq ih =>
    rename_i s0 s' k v
    by_cases hk : k < s0.len
    · obtain ⟨v', s2', heq', hInv2, _⟩ := remove_spec s0 ih k hk
      rw [heq'] at heq
      have h2 : (v', s2') = (v, s') := Option.some.inj heq
      have h3 : s2' = s' := congrArg Prod.snd h2
      rw [← h3]
      exact hInv2
    · exfalso
      have hnone : removeSL s0 k = none := by
        show (locateKthElement s0 k).bind (fun ij => listsRemove s0 ij.1 ij.2) = none
        rw [locateKthElement, if_pos (Nat.le_of_not_lt hk)]
        rfl
      rw [hnone] at heq
      cases heq
  | clear hr ih => exact Inv_clear _ ih

/-!
## `binary_search` correctness
-/

theorem do_bind_some {β γ : Type} (a : β) (f : β → Option γ) :
    ((some a : Option β) >>= f) = f a := rfl

theorem countP_take_lt (l : List α) (x : α) (hs : l.Sorted (· ≤ ·)) :
    ∀ n e, n < l.countP (fun v => decide (v < x)) → l[n]? = some e → e < x := by
  intro n e hn hget
  by_contra hc
  have hdrop : (l.drop n).countP (fun v => decide (v < x)) = 0 := by
    rw [List.countP_eq_zero]
    intro f hf
    obtain ⟨q, hq⟩ := mem_drop_getElem? hf
    have hef : e ≤ f := sorted_le_of_getElem? hs (Nat.le_add_right n q) hget hq
    simp only [decide_eq_true_eq]
    intro hfx
    exact hc (lt_of_le_of_lt hef hfx)
  have hsplit : l.countP (fun v => decide (v < x)) =
      (l.take n).countP (fun v => decide (v < x)) +
      (l.drop n).countP (fun v => decide (v < x)) := by
    rw [← List.countP_append, List.take_append_drop]
  have htake : (l.take n).countP (fun v => decide (v < x)) ≤ n := by
    calc (l.take n).countP (fun v => decide (v < x)) ≤ (l.take n).length :=
          List.countP_le_length _
    _ ≤ n := by rw [List.length_take]; omega
  omega

theorem countP_drop_ge (l : List α) (x : α) (hs : l.Sorted (· ≤ ·)) :
    ∀ n e, l.countP (fun v => decide (v < x)) ≤ n → l[n]? = some e → x ≤ e := by
  intro n e hn hget
  by_contra hc
  have hnlen : n < l.length := by
    by_contra hb
    rw [List.getElem?_eq_none (Nat.le_of_not_lt hb)] at hget
    cases hget
  have htake : (l.take (n + 1)).countP (fun v => decide (v < x)) = (l.take (n + 1)).length := by
    rw [List.countP_eq_length]
    intro f hf
    obtain ⟨q, hq, hget2⟩ := mem_take_getElem? hf
    have hfe : f ≤ e := sorted_le_of_getElem? hs (by omega) hget2 hget
    simp only [decide_eq_true_eq]
    exact lt_of_le_of_lt hfe (lt_of_not_le hc)
  have hsplit : l.countP (fun v => decide (v < x)) =
      (l.take (n + 1)).countP (fun v => decide (v < x)) +
      (l.drop (n + 1)).countP (fun v => decide (v < x)) := by
    rw [← List.countP_append, List.take_append_drop]
  have hlent : (l.take (n + 1)).length = n + 1 := by
    rw [List.length_take]
    omega
  omega

/-- Inserting `x` at the rank `countP (· < x)` of a sorted list keeps it
sorted: that rank is a valid insertion slot. -/
theorem sorted_insertIdx_countP (l : List α) (x : α) (hs : l.Sorted (· ≤ ·)) :
    (l.insertIdx (l.countP (fun v => decide (v < x))) x).Sorted (· ≤ ·) := by
  have hrle : l.countP (fun v => decide (v < x)) ≤ l.length := List.countP_le_length _
  rw [insertIdx_eq_take_cons_drop _ x l hrle]
  refine sorted_insert_middle _ _ x (by rw [List.take_append_drop]; exact hs) ?_ ?_
  · intro e he
    obtain ⟨n, hn, hget⟩ := mem_take_getElem? he
    exact le_of_lt (countP_take_lt l x hs n e hn hget)
  · intro e he
    obtain ⟨q, hget⟩ := mem_drop_getElem? he
    exact countP_drop_ge l x hs _ e (Nat.le_add_right _ q) hget

/-- When `x` occurs in the container (and no bucket is empty, so the bisection
cannot panic), `binary_search` hits, at a rank that indexes `x` in the sorted
view. -/
theorem binarySearch_mem (s : SortedList α) (hInv : Inv s)
    (hne : ∀ l ∈ s.lists, l ≠ []) (x : α) (hx : x ∈ s.lists.flatten) :
    ∃ r, binarySearch s x = some (SearchResult.ok r) ∧ s.lists.flatten[r]? = some x := by
  obtain ⟨⟨m, hm5, hmo⟩, hloff, hTG, hlensum, hsorted, hnonlast, hload, hup, hlow⟩ := hInv
  have hflatne : s.lists.flatten ≠ [] := fun h => by rw [h] at hx; cases hx
  have hlen0 : ¬ s.len = 0 := by
    intro h0
    have hfl : s.lists.flatten.length = 0 := by rw [flatten_length_eq]; omega
    exact hflatne (List.eq_nil_of_length_eq_zero hfl)
  have hlslen : 0 < s.lists.length := by
    by_contra hc
    have hnil : s.lists = [] := List.eq_nil_of_length_eq_zero (by omega)
    rw [hnil] at hflatne
    exact hflatne rfl
  obtain ⟨k, hbis⟩ := bisect_some s.lists x hlslen hne
  obtain ⟨hk, hbefore, hafter, hk0⟩ := bisect_spec s.lists x hsorted k hbis
  have hdecomp := flatten_decomp s.lists k hk
  have hxB : x ∈ s.lists.getD k [] := by
    rw [hdecomp] at hx
    rcases List.mem_append.mp hx with hT | hBD
    · rcases hk0 with hk0 | ⟨vk, hvk, hvkx⟩
      · subst hk0
        simp at hT
      · have hvkmem : vk ∈ s.lists.getD k [] := List.mem_of_mem_head? hvk
        have hxvk : x ≤ vk := by
          have hcross := sorted_cross (show ((s.lists.take k).flatten ++
              (s.lists.getD k [] ++ (s.lists.drop (k + 1)).flatten)).Sorted (· ≤ ·) from by
            rw [← hdecomp]; exact hsorted)
          exact hcross x hT vk (List.mem_append_left _ hvkmem)
        have hxeq : x = vk := le_antisymm hxvk hvkx
        rw [hxeq]
        exact hvkmem
    · rcases List.mem_append.mp hBD with hB | hD
      · exact hB
      · exact absurd (hafter x hD) (lt_irrefl x)
  obtain ⟨p, hsbs, hgetp⟩ := sliceBinarySearch_mem (s.lists.getD k []) x
    (bucket_sorted s.lists hsorted k hk) hxB
  have hplen : p < (s.lists.getD k []).length := by
    by_contra hc
    rw [List.getElem?_eq_none (Nat.le_of_not_lt hc)] at hgetp
    cases hgetp
  have hflatp : s.lists.flatten[(∑ q ∈ Finset.range k, sizeD s.lists q) + p]? = some x := by
    rw [flatten_getElem? s.lists k p hk hplen, hgetp]
  by_cases hkz : k = 0
  · subst hkz
    refine ⟨p, ?_, ?_⟩
    · rw [binarySearch, if_neg hlen0, hbis, do_bind_some, if_pos rfl, hsbs]
      rfl
    · have hzero : (∑ q ∈ Finset.range 0, sizeD s.lists q) + p = p := by simp
      rw [← hzero]
      exact hflatp
  · have hsum : indexTreeSum s.indexTree 0 (k - 1) 1 0 (s.indexTreeOffset - 1) =
        ∑ q ∈ Finset.range k, sizeD s.lists q := by
      rw [hmo]
      rw [indexTreeSum_prefix_eq s.indexTree (bucketSizes s.lists) m (by rw [← hmo]; exact hTG)
        (k - 1) (by omega)]
      rw [show k - 1 + 1 = k from by omega]
      rfl
    refine ⟨p + (∑ q ∈ Finset.range k, sizeD s.lists q), ?_, ?_⟩
    · rw [binarySearch, if_neg hlen0, hbis, do_bind_some, if_neg hkz, hsbs]
      rw [hsum]
      rfl
    · rw [Nat.add_comm p _]
      exact hflatp

/-- When `x` does not occur in the container (and no bucket is empty unless
the container is empty), `binary_search` misses at the rank equal to the
number of elements strictly below `x`. -/
theorem binarySearch_not_mem (s : SortedList α) (hInv : Inv s)
    (hne : 0 < s.len → ∀ l ∈ s.lists, l ≠ []) (x : α) (hx : x ∉ s.lists.flatten) :
    binarySearch s x =
      some (SearchResult.err (s.lists.flatten.countP (fun v => decide (v < x)))) := by
  obtain ⟨⟨m, hm5, hmo⟩, hloff, hTG, hlensum, hsorted, hnonlast, hload, hup, hlow⟩ := hInv
  by_cases hlen0 : s.len = 0
  · have hfl : s.lists.flatten.length = 0 := by rw [flatten_length_eq]; omega
    have hnil : s.lists.flatten = [] := List.eq_nil_of_length_eq_zero hfl
    rw [binarySearch, if_pos hlen0, hnil, List.countP_nil]
  · have hpos : 0 < s.len := by omega
    have hlslen : 0 < s.lists.length := by
      by_contra hc
      have hnil : s.lists = [] := List.eq_nil_of_length_eq_zero (by omega)
      have hfl : s.lists.flatten.length = 0 := by rw [hnil]; rfl
      rw [flatten_length_eq, ← hlensum] at hfl
      omega
    obtain ⟨k, hbis⟩ := bisect_some s.lists x hlslen (hne hpos)
    obtain ⟨hk, hbefore, hafter, hk0⟩ := bisect_spec s.lists x hsorted k hbis
    have hdecomp := flatten_decomp s.lists k hk
    have hxB : x ∉ s.lists.getD k [] := by
      intro hB
      refine hx ?_
      rw [hdecomp]
      exact List.mem_append_right _ (List.mem_append_left _ hB)
    have hsbs := sliceBinarySearch_not_mem (s.lists.getD k []) x
      (bucket_sorted s.lists hsorted k hk) hxB
    have hcT : ((s.lists.take k).flatten).countP (fun v => decide (v < x)) =
        ∑ q ∈ Finset.range k, sizeD s.lists q := by
      rw [← flatten_take_length]
      rw [List.countP_eq_length]
      intro e he
      have heflat : e ∈ s.lists.flatten := by
        rw [← flatten_take_drop s.lists k]
        exact List.mem_append_left _ he
      have hex : e ≤ x := hbefore e he
      simp only [decide_eq_true_eq]
      exact lt_of_le_of_ne hex (fun h => hx (h ▸ heflat))
    have hcD : ((s.lists.drop (k + 1)).flatten).countP (fun v => decide (v < x)) = 0 := by
      rw [List.countP_eq_zero]
      intro e he
      simp only [decide_eq_true_eq]
      exact not_lt.mpr (le_of_lt (hafter e he))
    have hcount : s.lists.flatten.countP (fun v => decide (v < x)) =
        (∑ q ∈ Finset.range k, sizeD s.lists q) +
          (s.lists.getD k []).countP (fun v => decide (v < x)) := by
      rw [hdecomp, List.countP_append, List.countP_append, hcT, hcD]
      omega
    by_cases hkz : k = 0
    · subst hkz
      rw [binarySearch, if_neg hlen0, hbis, do_bind_some, if_pos rfl, hsbs, hcount]
      have hzero : (∑ q ∈ Finset.range 0, sizeD s.lists q) = 0 := by simp
      rw [hzero, Nat.zero_add]
      rfl
    · have hsum : indexTreeSum s.indexTree 0 (k - 1) 1 0 (s.indexTreeOffset - 1) =
          ∑ q ∈ Finset.range k, sizeD s.lists q := by
        rw [hmo]
        rw [indexTreeSum_prefix_eq s.indexTree (bucketSizes s.lists) m (by rw [← hmo]; exact hTG)
          (k - 1) (by omega)]
        rw [show k - 1 + 1 = k from by omega]
        rfl
      rw [binarySearch, if_neg hlen0, hbis, do_bind_some, if_neg hkz, hsbs, hsum, hcount,
        Nat.add_comm]
      rfl

/-- A flat-view hit rank is returned verbatim by `get`. -/
theorem getSL_of_flatten (s : SortedList α) (hInv : Inv s) (r : Nat) (x : α)
    (h : s.lists.flatten[r]? = some x) : getSL s r = some (some x) := by
  have hrlen : r < s.lists.flatten.length := by
    by_contra hc
    rw [List.getElem?_eq_none (Nat.le_of_not_lt hc)] at h
    cases h
  have hlen : s.lists.flatten.length = s.len := by
    rw [flatten_length_eq, hInv.2.2.2.1]
  rw [getSL, if_neg (by omega), kthSmallest_spec s hInv r (by omega), h]
  rfl

/-!
## The exact-fit batch: constructing from `LOAD` elements leaves a trailing
empty bucket, on which the bisection panics
-/

theorem sorted_replicate (n : Nat) (a : α) : (List.replicate n a).Sorted (· ≤ ·) := by
  induction n with
  | zero => simp
  | succ k ih =>
    rw [List.replicate_succ]
    refine List.Pairwise.cons ?_ ih
    intro b hb
    exact le_of_eq (List.eq_of_mem_replicate hb).symm

theorem mergeSort_replicate (n : Nat) (a : α) :
    (List.replicate n a).mergeSort (fun x y => x ≤ y) = List.replicate n a :=
  List.eq_of_perm_of_sorted (List.mergeSort_perm _ _) (mergeSort_sorted _)
    (sorted_replicate n a)

theorem bugLists :
    (fromListSL (List.replicate 1024 (0:ℕ))).lists = [List.replicate 1024 0, []] := by
  rw [fromListSL, rebuild_lists]
  show buildChunks 1024 [] ((List.replicate 1024 (0:ℕ)).mergeSort (fun a b => a ≤ b)) = _
  rw [mergeSort_replicate]
  rw [buildChunks_exact 1024 (List.replicate 1024 (0:ℕ)) []
    (by rw [List.length_nil]; omega)
    (by rw [List.length_nil, List.length_replicate])]
  rw [List.nil_append]

theorem bugLen : (fromListSL (List.replicate 1024 (0:ℕ))).len = 1024 := by
  show (List.replicate 1024 (0:ℕ)).length = 1024
  rw [List.length_replicate]

theorem bugBisect (x : ℕ) :
    bisectRightLists (fromListSL (List.replicate 1024 (0:ℕ))).lists x = none := by
  rw [bugLists]
  have h0 : (([List.replicate 1024 (0:ℕ), []] : List (List ℕ)).getD 0 []).head? = some 0 := by
    show (List.replicate 1024 (0:ℕ)).head? = some 0
    rw [show (1024:Nat) = 1023 + 1 from rfl, List.replicate_succ]
    rfl
  rw [bisectRightLists, h0]
  dsimp only
  rw [if_neg (by omega)]
  rfl

theorem bugBinarySearch (x : ℕ) :
    binarySearch (fromListSL (List.replicate 1024 (0:ℕ))) x = none := by
  rw [binarySearch, if_neg (by rw [bugLen]; omega), bugBisect]
  rfl

theorem bugInsert (x : ℕ) :
    insertSL (fromListSL (List.replicate 1024 (0:ℕ))) x = none := by
  rw [insertSL, if_neg (by rw [bugLen]; omega), bugBisect]
  rfl

/-!
## Supporting lemmas for the claims
-/

theorem adjacent_buckets_le (ls : List (List α)) (hs : ls.flatten.Sorted (· ≤ ·)) (i : Nat)
    (hi : i + 1 < ls.length) :
    ∀ e ∈ ls.getD i [], ∀ f ∈ ls.getD (i + 1) [], e ≤ f := by
  have hs2 : (ls.getD i [] ++ (ls.getD (i + 1) [] ++ (ls.drop (i + 2)).flatten)).Sorted (· ≤ ·) := by
    have h1 : ls.flatten = (ls.take i).flatten ++
        (ls.getD i [] ++ (ls.getD (i + 1) [] ++ (ls.drop (i + 2)).flatten)) := by
      conv_lhs => rw [decomp2 ls i hi]
      simp only [List.flatten_append, List.flatten_cons, List.append_assoc]
    rw [h1] at hs
    exact sorted_of_append_right hs
  intro e he f hf
  exact sorted_cross hs2 e he f (List.mem_append_left _ hf)

theorem lists_length_pos_of_len (s : SortedList α) (hlensum : s.len = (bucketSizes s.lists).sum)
    (hlen : s.len ≠ 0) : 0 < s.lists.length := by
  by_contra hc
  have hz : s.lists = [] := List.eq_nil_of_length_eq_zero (by omega)
  rw [hz] at hlensum
  exact hlen (by rw [hlensum]; rfl)

/-- `insert` succeeds on every invariant state whose buckets are all
non-empty. -/
theorem insert_some (s : SortedList α) (hInv : Inv s) (x : α)
    (hne : 0 < s.len → ∀ l ∈ s.lists, l ≠ []) : ∃ s1, insertSL s x = some s1 := by
  obtain ⟨hpow, hloff, hTG, hlensum, hsorted, hnonlast, hload, hup, hlow⟩ := hInv
  by_cases hlen : s.len = 0
  · have hzero := bucketSizes_zero_of_len_zero s hlensum hlen
    have hall0 : ∀ p, (bucketSizes s.lists).getD p 0 =
        (bucketSizes ([[]] : List (List α))).getD p 0 := by
      intro p
      rw [hzero p]
      match p with
      | 0 => rfl
      | Nat.succ q => rfl
    have hoff32 : 32 ≤ s.indexTreeOffset := by
      obtain ⟨m, hm5, hmeq⟩ := hpow
      calc (32:Nat) = 2 ^ 5 := by norm_num
      _ ≤ 2 ^ m := Nat.pow_le_pow_right (by omega) hm5
      _ = s.indexTreeOffset := hmeq.symm
    have hInv1 : Inv { s with lists := ([[]] : List (List α)) } := by
      refine ⟨hpow, ?_, TreeGood_congr hTG hall0, ?_, ?_, ?_, hload, hup, hlow⟩
      · show ([[]] : List (List α)).length ≤ s.indexTreeOffset
        simp only [List.length_singleton]
        omega
      · exact hlen
      · show ([[]] : List (List α)).flatten.Sorted (· ≤ ·)
        simp
      · intro p hp
        exfalso
        have hp2 : p + 1 < 1 := hp
        omega
    obtain ⟨s2x, heq, _, _, _, _⟩ :=
      listsInsert_spec { s with lists := ([[]] : List (List α)) } 0 x hInv1 (by simp)
        (by intro e he; simp at he) (by intro e he; simp at he)
    refine ⟨s2x, ?_⟩
    rw [insertSL, if_pos hlen]
    exact heq
  · have hlslen : 0 < s.lists.length := lists_length_pos_of_len s hlensum hlen
    obtain ⟨k, hbis⟩ := bisect_some s.lists x hlslen (hne (by omega))
    obtain ⟨hk, hbef, haft, _⟩ := bisect_spec s.lists x hsorted k hbis
    obtain ⟨s2x, heq, _, _, _, _⟩ :=
      listsInsert_spec s k x ⟨hpow, hloff, hTG, hlensum, hsorted, hnonlast, hload, hup, hlow⟩
        hk hbef (fun e he => le_of_lt (haft e he))
    refine ⟨s2x, ?_⟩
    rw [insertSL, if_neg hlen, hbis]
    exact heq

/-!
## The claims
-/

/-- C1: after every public operation the ordered view is sorted — the flat
view `iter()`/`flatten()` is non-decreasing, every bucket is internally
sorted ascending, and the last element of each bucket is at most the first
element of the next. -/
theorem claim_C1 (s : SortedList α) (h : Reachable s) :
    s.lists.flatten.Sorted (· ≤ ·) ∧
    (∀ i, i < s.lists.length → (s.lists.getD i []).Sorted (· ≤ ·)) ∧
    (∀ i, i + 1 < s.lists.length →
      ∀ e ∈ s.lists.getD i [], ∀ f ∈ s.lists.getD (i + 1) [], e ≤ f) := by
  have hInv := reachable_inv h
  have hsorted := hInv.2.2.2.2.1
  exact ⟨hsorted, fun i hi => bucket_sorted s.lists hsorted i hi,
    fun i hi => adjacent_buckets_le s.lists hsorted i hi⟩

/-- Witness for C1 at the batch-constructed container `from([3, 1, 2])`. -/
theorem claim_C1_witness :
    Reachable (fromListSL ([3, 1, 2] : List ℕ)) ∧
    ((fromListSL ([3, 1, 2] : List ℕ)).lists.flatten.Sorted (· ≤ ·) ∧
     (∀ i, i < (fromListSL ([3, 1, 2] : List ℕ)).lists.length →
       ((fromListSL ([3, 1, 2] : List ℕ)).lists.getD i []).Sorted (· ≤ ·)) ∧
     (∀ i, i + 1 < (fromListSL ([3, 1, 2] : List ℕ)).lists.length →
       ∀ e ∈ (fromListSL ([3, 1, 2] : List ℕ)).lists.getD i [],
         ∀ f ∈ (fromListSL ([3, 1, 2] : List ℕ)).lists.getD (i + 1) [], e ≤ f)) :=
  ⟨Reachable.ofList _, claim_C1 _ (Reachable.ofList _)⟩

/-- C2: for `k < len`, `kth_smallest(k)` (the segment-tree rank descent)
returns the `k`-th element of the sorted flat view; for `k ≥ len` it
panics. -/
theorem claim_C2 (s : SortedList α) (h : Reachable s) (k : Nat) :
    (k < s.len → kthSmallest s k = s.lists.flatten[k]? ∧ ∃ v, kthSmallest s k = some v) ∧
    (s.len ≤ k → kthSmallest s k = none) := by
  have hInv := reachable_inv h
  constructor
  · intro hk
    have hspec := kthSmallest_spec s hInv k hk
    have hlenf : s.lists.flatten.length = s.len := by
      rw [flatten_length_eq, hInv.2.2.2.1]
    refine ⟨hspec, ?_⟩
    rw [hspec]
    exact ⟨_, List.getElem?_eq_getElem (by omega)⟩
  · intro hk
    exact kthSmallest_oob s k hk

/-- Witness for C2 at `from([3, 1, 2])` with rank `1`. -/
theorem claim_C2_witness :
    Reachable (fromListSL ([3, 1, 2] : List ℕ)) ∧
    ((1 < (fromListSL ([3, 1, 2] : List ℕ)).len →
      kthSmallest (fromListSL ([3, 1, 2] : List ℕ)) 1 =
        (fromListSL ([3, 1, 2] : List ℕ)).lists.flatten[1]? ∧
      ∃ v, kthSmallest (fromListSL ([3, 1, 2] : List ℕ)) 1 = some v) ∧
     ((fromListSL ([3, 1, 2] : List ℕ)).len ≤ 1 →
      kthSmallest (fromListSL ([3, 1, 2] : List ℕ)) 1 = none)) :=
  ⟨Reachable.ofList _, claim_C2 _ (Reachable.ofList _) 1⟩

/-- C3: between public operations the rank index is consistent — `len` is
the flat iteration count and the root value `tree[1]`, every leaf
`tree[offset + i]` is the size of bucket `i` (`0` past the end), and every
internal node is the sum of its children. -/
theorem claim_C3 (s : SortedList α) (h : Reachable s) :
    s.len = s.lists.flatten.length ∧
    tget s.indexTree 1 = s.len ∧
    (∀ i, tget s.indexTree (s.indexTreeOffset + i) = (bucketSizes s.lists).getD i 0) ∧
    (∀ node, 1 ≤ node → node < s.indexTreeOffset →
      tget s.indexTree node = tget s.indexTree (2 * node) + tget s.indexTree (2 * node + 1)) := by
  obtain ⟨⟨m, hm5, hmo⟩, hloff, hTG, hlensum, hsorted, hnonlast, _, _, _⟩ := reachable_inv h
  have hop : 0 < s.indexTreeOffset := by
    rw [hmo]
    exact Nat.pos_pow_of_pos m (by omega)
  refine ⟨?_, ?_, ?_, ?_⟩
  · rw [flatten_length_eq]
    exact hlensum
  · rw [hTG.2 1 (le_refl 1) (by omega)]
    have hroot : treeVal (bucketSizes s.lists) s.indexTreeOffset 1 =
        (bucketSizes s.lists).sum := by
      rw [hmo]
      refine treeVal_root (bucketSizes s.lists) m ?_
      show (bucketSizes s.lists).length ≤ 2 ^ m
      rw [bucketSizes, List.length_map, ← hmo]
      exact hloff
    rw [hroot, hlensum]
  · intro i
    by_cases hi : i < s.indexTreeOffset
    · rw [hTG.2 (s.indexTreeOffset + i) (by omega) (by omega), treeVal_leaf (by omega)]
      congr 1
      omega
    · have h1 : tget s.indexTree (s.indexTreeOffset + i) = 0 := by
        show s.indexTree.getD (s.indexTreeOffset + i) 0 = 0
        rw [List.getD_eq_default _ _ (by rw [hTG.1]; omega)]
      have h2 : (bucketSizes s.lists).getD i 0 = 0 := by
        rw [List.getD_eq_default _ _ (by rw [bucketSizes, List.length_map]; omega)]
      rw [h1, h2]
  · intro node h1 h2
    rw [hTG.2 node h1 (by omega), treeVal_node h1 h2,
      ← hTG.2 (2 * node) (by omega) (by omega),
      ← hTG.2 (2 * node + 1) (by omega) (by omega)]

/-- Witness for C3 at `from([3, 1, 2])`. -/
theorem claim_C3_witness :
    Reachable (fromListSL ([3, 1, 2] : List ℕ)) ∧
    ((fromListSL ([3, 1, 2] : List ℕ)).len =
        (fromListSL ([3, 1, 2] : List ℕ)).lists.flatten.length ∧
     tget (fromListSL ([3, 1, 2] : List ℕ)).indexTree 1 = (fromListSL ([3, 1, 2] : List ℕ)).len ∧
     (∀ i, tget (fromListSL ([3, 1, 2] : List ℕ)).indexTree
         ((fromListSL ([3, 1, 2] : List ℕ)).indexTreeOffset + i) =
       (bucketSizes (fromListSL ([3, 1, 2] : List ℕ)).lists).getD i 0) ∧
     (∀ node, 1 ≤ node → node < (fromListSL ([3, 1, 2] : List ℕ)).indexTreeOffset →
       tget (fromListSL ([3, 1, 2] : List ℕ)).indexTree node =
         tget (fromListSL ([3, 1, 2] : List ℕ)).indexTree (2 * node) +
         tget (fromListSL ([3, 1, 2] : List ℕ)).indexTree (2 * node + 1))) :=
  ⟨Reachable.ofList _, claim_C3 _ (Reachable.ofList _)⟩

/-- C4 (amended): on every reachable container all of whose buckets are
non-empty — the batch bug can produce a reachable container with a trailing
empty bucket, on which `binary_search` panics instead — `binary_search(x)`
returns `Ok(r)` iff the container holds `x`, and then `get(r)` yields `x`;
when `x` is absent it returns `Err(r)` with `r` the 0-based insertion
position preserving sorted order (on the empty container, `Err(0)`). -/
theorem claim_C4 (s : SortedList α) (h : Reachable s)
    (hne : ∀ l ∈ s.lists, l ≠ []) (x : α) :
    (x ∈ s.lists.flatten →
      ∃ r, binarySearch s x = some (SearchResult.ok r) ∧ getSL s r = some (some x)) ∧
    (x ∉ s.lists.flatten →
      binarySearch s x =
        some (SearchResult.err (s.lists.flatten.countP (fun v => decide (v < x)))) ∧
      (s.lists.flatten.insertIdx (s.lists.flatten.countP (fun v => decide (v < x)))
        x).Sorted (· ≤ ·)) := by
  have hInv := reachable_inv h
  constructor
  · intro hx
    obtain ⟨r, hbs, hget⟩ := binarySearch_mem s hInv hne x hx
    exact ⟨r, hbs, getSL_of_flatten s hInv r x hget⟩
  · intro hx
    exact ⟨binarySearch_not_mem s hInv (fun _ => hne) x hx,
      sorted_insertIdx_countP _ x hInv.2.2.2.2.1⟩

/-- Witness for C4 at the freshly constructed empty container and `x = 0`:
the miss branch reports `Err(0)`. -/
theorem claim_C4_witness :
    Reachable (defaultSL : SortedList ℕ) ∧
    (∀ l ∈ (defaultSL : SortedList ℕ).lists, l ≠ []) ∧
    (((0:ℕ) ∈ (defaultSL : SortedList ℕ).lists.flatten →
      ∃ r, binarySearch (defaultSL : SortedList ℕ) 0 = some (SearchResult.ok r) ∧
        getSL (defaultSL : SortedList ℕ) r = some (some 0)) ∧
     ((0:ℕ) ∉ (defaultSL : SortedList ℕ).lists.flatten →
      binarySearch (defaultSL : SortedList ℕ) 0 =
        some (SearchResult.err
          ((defaultSL : SortedList ℕ).lists.flatten.countP (fun v => decide (v < 0)))) ∧
      ((defaultSL : SortedList ℕ).lists.flatten.insertIdx
        ((defaultSL : SortedList ℕ).lists.flatten.countP (fun v => decide (v < 0)))
        0).Sorted (· ≤ ·))) :=
  ⟨Reachable.new, fun l hl => absurd hl (List.not_mem_nil l),
    claim_C4 _ Reachable.new (fun l hl => absurd hl (List.not_mem_nil l)) 0⟩

/-- The unamended C4 fails: `from([0; 1024])` is reachable, yet
`binary_search(&5)` panics (no `Ok`/`Err` result at all) because the batch
constructor left a trailing empty bucket that the bucket bisection
indexes. -/
theorem claim_C4_counterexample :
    Reachable (fromListSL (List.replicate 1024 (0:ℕ))) ∧
    binarySearch (fromListSL (List.replicate 1024 (0:ℕ))) 5 = none :=
  ⟨Reachable.ofList _, bugBinarySearch 5⟩

/-- C5 (amended): on every reachable container all of whose buckets are
non-empty — on the batch-bug container the insert itself panics —
`insert(x)` followed by `remove(r)` at the rank `r` reported by
`binary_search(&x)` returns exactly `x` and restores the original ordered
sequence of elements. -/
theorem claim_C5 (s : SortedList α) (hreach : Reachable s)
    (hne : ∀ l ∈ s.lists, l ≠ []) (x : α) :
    ∃ s1 r v s2, insertSL s x = some s1 ∧
      binarySearch s1 x = some (SearchResult.ok r) ∧
      removeSL s1 r = some (v, s2) ∧ v = x ∧
      s2.lists.flatten = s.lists.flatten := by
  have hInv := reachable_inv hreach
  obtain ⟨s1, hins⟩ := insert_some s hInv x (fun _ => hne)
  obtain ⟨hInv1, hperm, hlen1, hstrong⟩ := insert_spec s hInv x s1 hins
  have hne1 : ∀ l ∈ s1.lists, l ≠ [] := hstrong hne
  have hx1 : x ∈ s1.lists.flatten := hperm.mem_iff.mpr (List.mem_cons_self x _)
  obtain ⟨r, hbs, hget⟩ := binarySearch_mem s1 hInv1 hne1 x hx1
  have hrflat : r < s1.lists.flatten.length := by
    by_contra hc
    rw [List.getElem?_eq_none (Nat.le_of_not_lt hc)] at hget
    cases hget
  have hrlen : r < s1.len := by
    rw [flatten_length_eq, ← hInv1.2.2.2.1] at hrflat
    exact hrflat
  obtain ⟨v, s2, hrm, hInv2, hlen2, hvk, hflat2⟩ := remove_spec s1 hInv1 r hrlen
  have hveq : v = x := by
    rw [hget] at hvk
    exact (Option.some.inj hvk).symm
  refine ⟨s1, r, v, s2, hins, hbs, hrm, hveq, ?_⟩
  have hgetel : s1.lists.flatten[r] = x := by
    have h1 : s1.lists.flatten[r]? = some s1.lists.flatten[r] :=
      List.getElem?_eq_getElem hrflat
    rw [hget] at h1
    exact (Option.some.inj h1).symm
  have hAB : s1.lists.flatten =
      s1.lists.flatten.take r ++ x :: s1.lists.flatten.drop (r + 1) := by
    conv_lhs => rw [← List.take_append_drop r s1.lists.flatten,
      List.drop_eq_getElem_cons hrflat, hgetel]
  have hpermAB : (s1.lists.flatten.take r ++ s1.lists.flatten.drop (r + 1)).Perm
      s.lists.flatten := by
    have h1 : (x :: (s1.lists.flatten.take r ++ s1.lists.flatten.drop (r + 1))).Perm
        (x :: s.lists.flatten) := by
      refine List.Perm.trans ?_ hperm
      refine List.Perm.trans List.perm_middle.symm ?_
      rw [← hAB]
    exact h1.cons_inv
  have herase : s2.lists.flatten =
      s1.lists.flatten.take r ++ s1.lists.flatten.drop (r + 1) := by
    rw [hflat2, List.eraseIdx_eq_take_drop_succ]
  refine List.eq_of_perm_of_sorted ?_ ?_ hInv.2.2.2.2.1
  · rw [herase]
    exact hpermAB
  · exact hInv2.2.2.2.2.1

/-- Witness for C5 at the empty container and `x = 3`. -/
theorem claim_C5_witness :
    Reachable (defaultSL : SortedList ℕ) ∧
    (∀ l ∈ (defaultSL : SortedList ℕ).lists, l ≠ []) ∧
    (∃ s1 r v s2, insertSL (defaultSL : SortedList ℕ) 3 = some s1 ∧
      binarySearch s1 3 = some (SearchResult.ok r) ∧
      removeSL s1 r = some (v, s2) ∧ v = 3 ∧
      s2.lists.flatten = (defaultSL : SortedList ℕ).lists.flatten) :=
  ⟨Reachable.new, fun l hl => absurd hl (List.not_mem_nil l),
    claim_C5 _ Reachable.new (fun l hl => absurd hl (List.not_mem_nil l)) 3⟩

/-- The unamended C5 fails: on the reachable container `from([0; 1024])`
the insert itself panics (the bucket bisection reads the head of the
trailing empty bucket), so no insert-then-remove roundtrip is possible. -/
theorem claim_C5_counterexample :
    Reachable (fromListSL (List.replicate 1024 (0:ℕ))) ∧
    insertSL (fromListSL (List.replicate 1024 (0:ℕ))) 5 = none :=
  ⟨Reachable.ofList _, bugInsert 5⟩

/-- C6: the batch constructor violates the claimed partition shape — from
`N = 1024` (nonzero, exactly `LOAD`) elements it produces a final bucket of
size zero, which the claim allows only for `N = 0`. -/
theorem claim_C6 :
    (fromListSL (List.replicate 1024 (0:ℕ))).lists = [List.replicate 1024 0, []] ∧
    (List.replicate 1024 (0:ℕ)).length = 1024 ∧ ([] : List ℕ).length = 0 :=
  ⟨bugLists, by rw [List.length_replicate], rfl⟩

/-- C7 (amended): in every reachable state every bucket other than the last
is non-empty; the original claim fails because the batch bug can leave a
trailing empty bucket while `len > 0`, and a stale empty bucket (or the
empty-batch bucket `[[]]`) can remain while `len = 0`. -/
theorem claim_C7 (s : SortedList α) (h : Reachable s) :
    ∀ i, i + 1 < s.lists.length → s.lists.getD i [] ≠ [] :=
  (reachable_inv h).2.2.2.2.2.1

/-- Witness for C7 at the batch-bug container (its non-final bucket is the
full one). -/
theorem claim_C7_witness :
    Reachable (fromListSL (List.replicate 1024 (0:ℕ))) ∧
    (∀ i, i + 1 < (fromListSL (List.replicate 1024 (0:ℕ))).lists.length →
      (fromListSL (List.replicate 1024 (0:ℕ))).lists.getD i [] ≠ []) :=
  ⟨Reachable.ofList _, claim_C7 _ (Reachable.ofList _)⟩

/-- The unamended C7 fails in both directions: `from([0; 1024])` is
reachable with `len = 1024 > 0` yet contains an empty bucket, and
`from([])` is reachable with `len = 0` yet its bucket array is `[[]]`,
not empty. -/
theorem claim_C7_counterexample :
    (Reachable (fromListSL (List.replicate 1024 (0:ℕ))) ∧
      0 < (fromListSL (List.replicate 1024 (0:ℕ))).len ∧
      [] ∈ (fromListSL (List.replicate 1024 (0:ℕ))).lists) ∧
    (Reachable (fromListSL ([] : List ℕ)) ∧
      (fromListSL ([] : List ℕ)).len = 0 ∧
      (fromListSL ([] : List ℕ)).lists = [[]]) := by
  refine ⟨⟨Reachable.ofList _, ?_, ?_⟩, ⟨Reachable.ofList _, rfl, ?_⟩⟩
  · rw [bugLen]
    omega
  · rw [bugLists]
    exact List.mem_cons_of_mem _ (List.mem_cons_self _ _)
  · show buildChunks 1024 [] (([] : List ℕ).mergeSort (fun a b => a ≤ b)) = [[]]
    rw [List.mergeSort_nil]
    rfl

/-- C8: the queries that can legitimately come up empty never panic for
`get`, `first` and `last` on any reachable container, but `binary_search`
does panic on a reachable container — the batch-bug state — so the claim
fails for `binary_search`. -/
theorem claim_C8 (s : SortedList α) (h : Reachable s) (k : Nat) :
    getSL s k ≠ none ∧ firstSL s ≠ none ∧ lastSL s ≠ none ∧
    (Reachable (fromListSL (List.replicate 1024 (0:ℕ))) ∧
      binarySearch (fromListSL (List.replicate 1024 (0:ℕ))) 7 = none) := by
  have hInv := reachable_inv h
  have hlensum := hInv.2.2.2.1
  refine ⟨?_, ?_, ?_, Reachable.ofList _, bugBinarySearch 7⟩
  · by_cases hg : s.len = 0 ∨ s.len ≤ k
    · rw [getSL, if_pos hg]
      simp
    · push_neg at hg
      rw [getSL, if_neg (by omega)]
      rw [kthSmallest_spec s hInv k hg.2]
      have hklen : k < s.lists.flatten.length := by
        rw [flatten_length_eq, ← hlensum]
        omega
      rw [List.getElem?_eq_getElem hklen]
      simp
  · by_cases hz : s.len = 0
    · rw [firstSL, if_pos hz]
      simp
    · have hlspos : 0 < s.lists.length := lists_length_pos_of_len s hlensum hz
      match hls : s.lists with
      | [] =>
        rw [hls] at hlspos
        simp at hlspos
      | a :: tl =>
        rw [firstSL, if_neg hz, hls]
        simp
  · by_cases hz : s.len = 0
    · rw [lastSL, if_pos hz]
      simp
    · have hlspos : 0 < s.lists.length := lists_length_pos_of_len s hlensum hz
      cases hgl : s.lists.getLast? with
      | none =>
        have hnil : s.lists = [] := List.getLast?_eq_none_iff.mp hgl
        rw [hnil] at hlspos
        simp at hlspos
      | some b =>
        rw [lastSL, if_neg hz, hgl]
        simp

/-- Witness for C8 at the empty container and rank `0`. -/
theorem claim_C8_witness :
    Reachable (defaultSL : SortedList ℕ) ∧
    (getSL (defaultSL : SortedList ℕ) 0 ≠ none ∧
     firstSL (defaultSL : SortedList ℕ) ≠ none ∧
     lastSL (defaultSL : SortedList ℕ) ≠ none ∧
     (Reachable (fromListSL (List.replicate 1024 (0:ℕ))) ∧
       binarySearch (fromListSL (List.replicate 1024 (0:ℕ))) 7 = none)) :=
  ⟨Reachable.new, claim_C8 _ Reachable.new 0⟩

/-- C9: batch construction followed by `to_vec()` is exactly the stable
ascending sort (`List.mergeSort`, Lean's stable merge sort) of the batch —
in particular it is sorted and a permutation of the input. -/
theorem claim_C9 (l : List α) :
    toVec (fromListSL l) = l.mergeSort (fun a b => a ≤ b) ∧
    (toVec (fromListSL l)).Sorted (· ≤ ·) ∧ (toVec (fromListSL l)).Perm l := by
  have h1 : toVec (fromListSL l) = l.mergeSort (fun a b => a ≤ b) := by
    show (fromListSL l).lists.flatten = _
    rw [fromListSL, rebuild_lists]
    show (buildChunks 1024 [] (l.mergeSort (fun a b => a ≤ b))).flatten = _
    rw [buildChunks_flatten]
    rfl
  refine ⟨h1, ?_, ?_⟩
  · rw [h1]
    exact mergeSort_sorted l
  · rw [h1]
    exact List.mergeSort_perm l _

/-- C10: `first()`, `last()` and `get(k)` guard on `is_empty()`/`len`, so on
any state with `len = 0` — including reachable states whose bucket array
still holds a stale empty bucket — they return the in-band `None` and never
fail. -/
theorem claim_C10 (s : SortedList α) (hlen : s.len = 0) (k : Nat) :
    firstSL s = some none ∧ lastSL s = some none ∧ getSL s k = some none := by
  refine ⟨?_, ?_, ?_⟩
  · rw [firstSL, if_pos hlen]
  · rw [lastSL, if_pos hlen]
  · rw [getSL, if_pos (Or.inl hlen)]

/-- Witness for C10 at the reachable empty-batch container, whose bucket
array is the stale `[[]]` while `len = 0`. -/
theorem claim_C10_witness :
    Reachable (fromListSL ([] : List ℕ)) ∧
    (fromListSL ([] : List ℕ)).len = 0 ∧
    (fromListSL ([] : List ℕ)).lists = [[]] ∧
    (firstSL (fromListSL ([] : List ℕ)) = some none ∧
     lastSL (fromListSL ([] : List ℕ)) = some none ∧
     getSL (fromListSL ([] : List ℕ)) 0 = some none) :=
  ⟨Reachable.ofList _, rfl,
    by
      show buildChunks 1024 [] (([] : List ℕ).mergeSort (fun a b => a ≤ b)) = [[]]
      rw [List.mergeSort_nil]
      rfl,
    claim_C10 _ rfl 0⟩

end SortedListRs
